import Mathlib

/-!
# torrentd: the bencode decoder (`bencode.c`) and the loader (`torrent.c`)

A shallow embedding of the recursive-descent bencode decoder and of the
functions that fill a torrent descriptor from a decoded tree, and the facts
proved about them.

Modelling conventions.

* Memory.  The decoder receives a pointer `str` and a length `slen`.  The
  readable memory starting at `str` is a list of bytes `mem` (a byte is a
  `Nat`); an address is an offset into it.  Reading an address outside `mem`
  is undefined behaviour in C and is the separate outcome `fault` here.  The
  declared length `slen` is independent of `mem.length`: the readable memory
  may continue after the declared end.
* Cursor.  `struct be_parser` is the pair `bp_cur`, `bp_end`; `bp_end` never
  changes, `bp_cur` is threaded through every call and is returned with every
  result, also with `NULL` results, because callers look at it after a
  failure.
* Allocation.  `malloc` and `calloc` are taken to succeed.
* Recursion.  The mutually recursive C functions are defined by recursion on
  a fuel argument; `be_nparse` supplies `2 * slen + 2`, which is always
  enough (`be_parse_bp_fuel_enough`).
* `strtoll` is the C library function, modelled from the C standard.  Whether
  it sets `errno` when no digits are found differs between C libraries, so it
  is the parameter `einval`.
-/

namespace Torrentd

/-! ## Values -/

/-- The `struct bencode` node.  The constructor is the `be_type` tag, the first
field is `be_dictkey` (`none` is `NULL`), the second is the member of the
`be_value` union in use.  A C string pointer is `none` for `NULL` and otherwise
the bytes of the allocated buffer, terminator included.  A `TAILQ` is the list
of its elements from `TAILQ_FIRST` on. -/
inductive bencode where
  | BET_DICT (be_dictkey : Option (List Nat)) (be_dict : List bencode)
  | BET_LIST (be_dictkey : Option (List Nat)) (be_list : List bencode)
  | BET_INTEGER (be_dictkey : Option (List Nat)) (be_int : Int)
  | BET_STRING (be_dictkey : Option (List Nat)) (be_str : Option (List Nat))

/-- The assignment `ben->be_dictkey = dst`. -/
def bencode.set_dictkey (dst : Option (List Nat)) : bencode → bencode
  | .BET_DICT _ l => .BET_DICT dst l
  | .BET_LIST _ l => .BET_LIST dst l
  | .BET_INTEGER _ n => .BET_INTEGER dst n
  | .BET_STRING _ s => .BET_STRING dst s

/-- What a call leaves behind: it ran out of fuel, it read outside the readable
memory, or it returned `ret` with the cursor at `bp_cur`. -/
inductive Outcome (α : Type) where
  | nofuel : Outcome α
  | fault : Outcome α
  | done (ret : α) (bp_cur : Nat) : Outcome α

/-- What `be_nparse` gives its caller: `ret none` is the `NULL` return (decode
failure), `ret (some be)` the decoded tree. -/
inductive Decoded where
  | nofuel : Decoded
  | fault : Decoded
  | ret (be : Option bencode) : Decoded

/-! ## The C library -/

/-- The bytes of an ASCII text, for writing inputs down. -/
def bytes (s : String) : List Nat := s.toList.map Char.toNat

/-- The function `isspace` in the C locale. -/
def isspace (c : Nat) : Bool := c == 32 || (9 ≤ c && c ≤ 13)

/-- The function `isdigit`. -/
def isdigit (c : Nat) : Bool := 48 ≤ c && c ≤ 57

/-- The number of leading white-space bytes. -/
def count_space : List Nat → Nat
  | [] => 0
  | c :: s => if isspace c then count_space s + 1 else 0

/-- The value of a run of decimal digits. -/
def digits_value (ds : List Nat) : Nat := ds.foldl (fun a d => 10 * a + (d - 48)) 0

/-- The constant `LLONG_MAX`. -/
def LLONG_MAX : Int := 2 ^ 63 - 1

/-- The constant `LLONG_MIN`. -/
def LLONG_MIN : Int := -(2 ^ 63)

/-- What `strtoll` returns: the number, `*endptr`, and whether it set `errno`. -/
structure strtoll_ret where
  num : Int
  endptr : Nat
  errno : Bool

/-- What `strtoll` returns for digits of value `v` (negated when `neg`) that end
at `e`: a value out of range is clamped and sets `errno`. -/
def clamp (neg : Bool) (v : Nat) (e : Nat) : strtoll_ret :=
  let x : Int := if neg then -(v : Int) else (v : Int)
  if x < LLONG_MIN then ⟨LLONG_MIN, e, true⟩
  else if LLONG_MAX < x then ⟨LLONG_MAX, e, true⟩
  else ⟨x, e, false⟩

/-- The call `strtoll(nptr, &endptr, 10)` with `errno` cleared before: skip white
space, take an optional sign, take the digits.  The scan reads the byte that
stops it, so the result is `none` (a read outside the readable memory) when the
memory ends first.  Without digits the result is 0 with `endptr = nptr`, and
`errno` is set when the library does that (`einval`).  A value out of range is
clamped and sets `errno`. -/
def strtoll (einval : Bool) (mem : List Nat) (nptr : Nat) : Option strtoll_ret :=
  let s := mem.drop nptr
  let k := count_space s
  match s.drop k with
  | [] => none
  | c :: t =>
    let signed := c == 45 || c == 43
    let body := if signed then t else c :: t
    let ds := body.takeWhile isdigit
    match body.drop ds.length with
    | [] => none
    | _ :: _ =>
      if ds.length = 0 then some ⟨0, nptr, einval⟩
      else
        some (clamp (c == 45) (digits_value ds) (nptr + k + (if signed then 1 else 0) + ds.length))

/-- The call `strlen(str)`: `none` when no NUL byte is in the readable memory. -/
def strlen (mem : List Nat) : Option Nat :=
  if 0 ∈ mem then some (mem.indexOf 0) else none

/-! ## The decoder -/

/-- The function `parse_string`.  The return value `none` is `-1`; `some dst` is
`0` with `*str = dst`.  The byte at `sptr` is skipped without being looked at,
and `memcpy` reads `len` bytes from the cursor whatever `bp_end` is. -/
def parse_string (einval : Bool) (mem : List Nat) (bp_cur : Nat) :
    Outcome (Option (Option (List Nat))) :=
  match strtoll einval mem bp_cur with
  | none => .fault
  | some r =>
    if r.num < 0 ∨ (r.num = 0 ∧ r.errno = true) then .done none bp_cur
    else
      let cur := r.endptr + 1
      if 0 < r.num then
        let len := r.num.toNat
        if cur + len ≤ mem.length then
          .done (some (some ((mem.drop cur).take len ++ [0]))) (cur + len)
        else .fault
      else .done (some none) cur

/-- The function `be_parse_string`. -/
def be_parse_string (einval : Bool) (mem : List Nat) (bp_cur : Nat) :
    Outcome (Option bencode) :=
  match parse_string einval mem bp_cur with
  | .nofuel => .nofuel
  | .fault => .fault
  | .done none cur => .done none cur
  | .done (some dst) cur => .done (some (.BET_STRING none dst)) cur

/-- The function `be_parse_integer`. -/
def be_parse_integer (einval : Bool) (mem : List Nat) (bp_cur : Nat) :
    Outcome (Option bencode) :=
  let cur := bp_cur + 1
  match strtoll einval mem cur with
  | none => .fault
  | some r =>
    if r.num = 0 ∧ r.errno = true then .done none cur
    else
      match mem[r.endptr]? with
      | none => .fault
      | some c =>
        if c ≠ 101 then .done none r.endptr
        else .done (some (.BET_INTEGER none r.num)) (r.endptr + 1)

mutual

/-- The function `be_parse_bp`.  The bodies of `be_parse_list` and
`be_parse_dict` stand in their cases (`be_parse_bp_l`, `be_parse_bp_d`); their
`calloc` and `TAILQ_INIT` give the empty queue that the loops start from. -/
def be_parse_bp (einval : Bool) (mem : List Nat) (bp_end : Nat) :
    Nat → Nat → Outcome (Option bencode)
  | 0, _ => .nofuel
  | fuel + 1, bp_cur =>
    match mem[bp_cur]? with
    | none => .fault
    | some c =>
      if c = 0 ∨ bp_end ≤ bp_cur then .done none bp_cur
      else if isdigit c then be_parse_string einval mem bp_cur
      else if c = 105 then be_parse_integer einval mem bp_cur
      else if c = 108 then
        match list_loop einval mem bp_end fuel (bp_cur + 1) [] with
        | .nofuel => .nofuel
        | .fault => .fault
        | .done l cur =>
          match mem[cur]? with
          | none => .fault
          | some ch =>
            if ch ≠ 101 then .done none cur
            else .done (some (.BET_LIST none l)) (cur + 1)
      else if c = 100 then
        match dict_loop einval mem bp_end fuel (bp_cur + 1) [] with
        | .nofuel => .nofuel
        | .fault => .fault
        | .done l cur =>
          match mem[cur]? with
          | none => .fault
          | some ch =>
            if ch ≠ 101 then .done none cur
            else .done (some (.BET_DICT none l)) (cur + 1)
      else .done none bp_cur

/-- The `for` loop of `be_parse_list`, from its condition on; `acc` is the
queue built so far.  `len` is a `size_t`, so `len > 0` says that the cursor is
not at `bp_end` (a cursor after `bp_end` gives a large positive `len`). -/
def list_loop (einval : Bool) (mem : List Nat) (bp_end : Nat) :
    Nat → Nat → List bencode → Outcome (List bencode)
  | 0, _, _ => .nofuel
  | fuel + 1, bp_cur, acc =>
    match mem[bp_cur]? with
    | none => .fault
    | some c =>
      if c ≠ 0 ∧ bp_end ≠ bp_cur then
        match be_parse_bp einval mem bp_end fuel bp_cur with
        | .nofuel => .nofuel
        | .fault => .fault
        | .done none cur => .done acc cur
        | .done (some ben) cur => list_loop einval mem bp_end fuel cur (ben :: acc)
      else .done acc bp_cur

/-- The `for` loop of `be_parse_dict`, from its condition on. -/
def dict_loop (einval : Bool) (mem : List Nat) (bp_end : Nat) :
    Nat → Nat → List bencode → Outcome (List bencode)
  | 0, _, _ => .nofuel
  | fuel + 1, bp_cur, acc =>
    match mem[bp_cur]? with
    | none => .fault
    | some c =>
      if c ≠ 0 ∧ bp_end ≠ bp_cur then
        match parse_string einval mem bp_cur with
        | .nofuel => .nofuel
        | .fault => .fault
        | .done none cur => .done acc cur
        | .done (some dst) cur =>
          match be_parse_bp einval mem bp_end fuel cur with
          | .nofuel => .nofuel
          | .fault => .fault
          | .done none cur2 => .done acc cur2
          | .done (some ben) cur2 =>
            dict_loop einval mem bp_end fuel cur2 (ben.set_dictkey dst :: acc)
      else .done acc bp_cur

end

/-- The function `be_parse_list`: the list case of `be_parse_bp`, by itself. -/
def be_parse_list (einval : Bool) (mem : List Nat) (bp_end fuel bp_cur : Nat) :
    Outcome (Option bencode) :=
  match list_loop einval mem bp_end fuel (bp_cur + 1) [] with
  | .nofuel => .nofuel
  | .fault => .fault
  | .done l cur =>
    match mem[cur]? with
    | none => .fault
    | some ch =>
      if ch ≠ 101 then .done none cur
      else .done (some (.BET_LIST none l)) (cur + 1)

/-- The function `be_parse_dict`: the dictionary case of `be_parse_bp`. -/
def be_parse_dict (einval : Bool) (mem : List Nat) (bp_end fuel bp_cur : Nat) :
    Outcome (Option bencode) :=
  match dict_loop einval mem bp_end fuel (bp_cur + 1) [] with
  | .nofuel => .nofuel
  | .fault => .fault
  | .done l cur =>
    match mem[cur]? with
    | none => .fault
    | some ch =>
      if ch ≠ 101 then .done none cur
      else .done (some (.BET_DICT none l)) (cur + 1)

/-- The parser run that `be_nparse` starts once `slen` is settled. -/
def be_run (einval : Bool) (mem : List Nat) (slen : Nat) : Decoded :=
  match be_parse_bp einval mem slen (2 * slen + 2) 0 with
  | .nofuel => .nofuel
  | .fault => .fault
  | .done r _ => .ret r

/-- The function `be_nparse`: a declared length of 0 means a NUL-terminated
string, measured with `strlen`. -/
def be_nparse (einval : Bool) (mem : List Nat) (slen : Nat) : Decoded :=
  if slen = 0 then
    match strlen mem with
    | none => .fault
    | some n => be_run einval mem n
  else be_run einval mem slen

/-- The canonical base-10 text of an integer, as bytes: what `toString` prints. -/
def decimal (n : Int) : List Nat := bytes (toString n)

/-- The input `e` decodes by itself (`be_nparse` on `e` with its length) to the
node `v`, and the decoder has then consumed all of `e`: the cursor has reached
the last address of `e` plus one. -/
def decodes_to (einval : Bool) (e : List Nat) (v : bencode) : Prop :=
  be_parse_bp einval e e.length (2 * e.length + 2) 0 = .done (some v) e.length

/-- The inputs of the elements of a list, one after the other. -/
def list_body : List (List Nat × bencode) → List Nat
  | [] => []
  | (e, _) :: es => e ++ list_body es

/-- The encoding of a byte-string key `b`: its length in decimal, a colon, the
bytes. -/
def key_text (b : List Nat) : List Nat := decimal (b.length : Int) ++ 58 :: b

/-- The input of a dictionary body: each key, encoded, followed by the input of
its value. -/
def dict_body : List (List Nat × List Nat × bencode) → List Nat
  | [] => []
  | (b, e, _) :: es => key_text b ++ (e ++ dict_body es)

/-- The children of the dictionary node, in the order of the input: each value
with its key (and the terminator) as `be_dictkey`. -/
def dict_children (es : List (List Nat × List Nat × bencode)) : List bencode :=
  es.map (fun p => p.2.2.set_dictkey (some (p.1 ++ [0])))

/-! ## The loader (`torrent.c`)

The descriptor `struct torrent *to` is threaded through the calls as `tor`
(`to` is a reserved word here).  A call returns its `int` and the descriptor
as it has left it, or `fault` when it reads through a null pointer. -/

/-- The `struct tracker`; `tr_addr` is never written. -/
structure tracker where
  tr_url : List Nat
  deriving DecidableEq

/-- The `struct tfile`. -/
structure tfile where
  tf_path : List Nat
  tf_length : Nat
  deriving DecidableEq

/-- The `struct torrent`: the two queues from `TAILQ_FIRST` on, the strings
(`none` is `NULL`), and the numbers. -/
structure torrent where
  to_trackerlist : List tracker
  to_filelist : List tfile
  to_piecesdigest : Option (List Nat)
  to_comment : Option (List Nat)
  to_creator : Option (List Nat)
  to_createdat : Int
  to_piecelen : Nat
  deriving DecidableEq

/-- The descriptor as `parse_torrent` prepares it: `calloc` and two
`TAILQ_INIT`. -/
def torrent_init : torrent := ⟨[], [], none, none, none, 0, 0⟩

/-- What a call of the loader leaves behind: `fault` for a read through a null
pointer, otherwise the returned `int` and the state. -/
inductive Loaded (σ : Type) where
  | fault : Loaded σ
  | ret (rc : Int) (st : σ) : Loaded σ

/-- The C string in a buffer: the bytes before the first NUL. -/
def cstr (buf : List Nat) : List Nat := buf.takeWhile (fun c => c != 0)

/-- The call `strcmp(s, lit) == 0` for a buffer `s` and a string literal. -/
def streq (s : List Nat) (lit : String) : Bool := cstr s == bytes lit

/-- The function `strdup`, which is taken to succeed. -/
def strdup (buf : List Nat) : List Nat := cstr buf ++ [0]

/-- Modelled from the spec: the member `be_strlen` that `be_strdup` reads is
not declared in `bencode.h`.  The spec gives a byte string its bytes and an
explicit length; the length of a string node is the number of its bytes, which
is the size of its buffer without the terminator, and 0 without a buffer. -/
def be_strlen : bencode → Nat
  | .BET_STRING _ (some buf) => buf.length - 1
  | _ => 0

/-- The function `be_strdup`: `none` is the return value `-1`, which leaves
`*str` alone; `some buf` is `0` with `*str = buf`. -/
def be_strdup (be : bencode) : Option (List Nat) :=
  match be with
  | .BET_STRING _ none => some ([].take (be_strlen be) ++ [0])
  | .BET_STRING _ (some buf) => some (buf.take (be_strlen be) ++ [0])
  | _ => none

/-- The `BET_STRING` case of `load_tracker`: `strdup(be->be_str)` reads through
`be_str`; the tracker goes to the head of the queue when the node has a
dictionary key and to the tail when it has none. -/
def add_tracker (tor : torrent) (be_dictkey be_str : Option (List Nat)) : Loaded torrent :=
  match be_str with
  | none => .fault
  | some buf =>
    if be_dictkey.isSome then
      .ret 0 { tor with to_trackerlist := ⟨strdup buf⟩ :: tor.to_trackerlist }
    else .ret 0 { tor with to_trackerlist := tor.to_trackerlist ++ [⟨strdup buf⟩] }

mutual

/-- The function `load_tracker`. -/
def load_tracker (tor : torrent) : bencode → Loaded torrent
  | .BET_STRING k s => add_tracker tor k s
  | .BET_LIST _ l => load_tracker_loop tor l
  | _ => .ret (-1) tor

/-- The `TAILQ_FOREACH` of `load_tracker`: a string child is loaded, of a list
child only `TAILQ_FIRST` is, and that is `NULL` for an empty list; what the
inner calls return is not looked at. -/
def load_tracker_loop (tor : torrent) : List bencode → Loaded torrent
  | [] => .ret 0 tor
  | .BET_STRING k s :: rest =>
    match add_tracker tor k s with
    | .fault => .fault
    | .ret _ tor1 => load_tracker_loop tor1 rest
  | .BET_LIST _ [] :: _ => .fault
  | .BET_LIST _ (first :: _) :: rest =>
    match load_tracker tor first with
    | .fault => .fault
    | .ret _ tor1 => load_tracker_loop tor1 rest
  | _ :: rest => load_tracker_loop tor rest

end

/-- The `TAILQ_FOREACH` loops of the loader that are left with `return (-1)`:
`step` is one round, and a round that gives an `int` other than 0 stands for
the `return (-1)`. -/
def walk {σ : Type} (step : σ → bencode → Loaded σ) : σ → List bencode → Loaded σ
  | st, [] => .ret 0 st
  | st, ben :: rest =>
    match step st ben with
    | .fault => .fault
    | .ret rc st1 => if rc ≠ 0 then .ret (-1) st1 else walk step st1 rest

/-- One round of the `TAILQ_FOREACH` of `load_file`, on its locals `tname` and
`fsize`.  `strcmp` reads through `be_dictkey` only when the type test before it
holds. -/
def load_file_step (st : Option (List Nat) × Nat) : bencode → Loaded (Option (List Nat) × Nat)
  | .BET_LIST k l =>
    match k with
    | none => .fault
    | some key =>
      if streq key "path" then
        match l with
        | [] => .ret 0 st
        | bep :: _ =>
          match be_strdup bep with
          | none => .ret (-1) st
          | some s => .ret 0 (some s, st.2)
      else .ret 0 st
  | .BET_INTEGER k n =>
    match k with
    | none => .fault
    | some key =>
      if streq key "length" then
        if n ≤ 0 then .ret (-1) st
        else .ret 0 (st.1, n.toNat)
      else .ret 0 st
  | _ => .ret 0 st

/-- The function `load_file`, on the queue `be->be_dict` of its argument. -/
def load_file (tor : torrent) (be_dict : List bencode) : Loaded torrent :=
  match walk load_file_step (none, 0) be_dict with
  | .fault => .fault
  | .ret rc (tname, fsize) =>
    if rc ≠ 0 then .ret (-1) tor
    else
      match tname with
      | none => .ret (-1) tor
      | some path =>
        if fsize = 0 then .ret (-1) tor
        else .ret 0 { tor with to_filelist := tor.to_filelist ++ [⟨path, fsize⟩] }

/-- One round of the `TAILQ_FOREACH` of `load_files`. -/
def load_files_step (tor : torrent) : bencode → Loaded torrent
  | .BET_DICT _ l => load_file tor l
  | _ => .ret 0 tor

/-- The function `load_files`, on the queue of its argument. -/
def load_files (tor : torrent) (be_list : List bencode) : Loaded torrent :=
  walk load_files_step tor be_list

/-- The locals of `load_info` next to the descriptor. -/
structure info_state where
  tor : torrent
  tname : Option (List Nat)
  fsize : Nat
  is_single_file : Bool

/-- One round of the `TAILQ_FOREACH` of `load_info`. -/
def load_info_step (st : info_state) : bencode → Loaded info_state
  | .BET_STRING k s =>
    match k with
    | none => .fault
    | some key =>
      if st.tor.to_piecesdigest.isNone ∧ streq key "pieces" then
        match be_strdup (.BET_STRING k s) with
        | none => .ret (-1) st
        | some d => .ret 0 { st with tor := { st.tor with to_piecesdigest := some d } }
      else if streq key "name" then
        match be_strdup (.BET_STRING k s) with
        | none => .ret (-1) st
        | some nm => .ret 0 { st with tname := some nm }
      else .ret 0 st
  | .BET_INTEGER k n =>
    match k with
    | none => .fault
    | some key =>
      if streq key "piece length" then
        if n ≤ 0 then .ret (-1) st
        else .ret 0 { st with tor := { st.tor with to_piecelen := n.toNat } }
      else if streq key "length" then
        if n ≤ 0 then .ret (-1) st
        else .ret 0 { st with fsize := n.toNat }
      else .ret 0 st
  | .BET_LIST k l =>
    match k with
    | none => .fault
    | some key =>
      if streq key "files" then
        match load_files st.tor l with
        | .fault => .fault
        | .ret rc tor1 =>
          if rc ≠ 0 then .ret (-1) { st with tor := tor1 }
          else .ret 0 { st with tor := tor1, is_single_file := false }
      else .ret 0 st
  | .BET_DICT _ _ => .ret 0 st

/-- The function `load_info`, on the queue of its argument. -/
def load_info (tor : torrent) (be_dict : List bencode) : Loaded torrent :=
  match walk load_info_step ⟨tor, none, 0, true⟩ be_dict with
  | .fault => .fault
  | .ret rc st =>
    if rc ≠ 0 then .ret (-1) st.tor
    else if st.is_single_file then
      match st.tname with
      | none => .ret (-1) st.tor
      | some path =>
        if st.fsize = 0 then .ret (-1) st.tor
        else .ret 0 { st.tor with to_filelist := ⟨path, st.fsize⟩ :: st.tor.to_filelist }
    else .ret 0 st.tor

/-- The tests of `load_torrent` that every type of entry reaches: `announce`,
`announce-list` and `info`. -/
def load_torrent_rest (tor : torrent) (key : List Nat) (ben : bencode) : Loaded torrent :=
  if streq key "announce" then
    match load_tracker tor ben with
    | .fault => .fault
    | .ret rc tor1 => if rc ≠ 0 then .ret (-1) tor1 else .ret 0 tor1
  else if streq key "announce-list" then
    match load_tracker tor ben with
    | .fault => .fault
    | .ret _ tor1 => .ret 0 tor1
  else
    match ben with
    | .BET_DICT _ l =>
      if streq key "info" then
        match load_info tor l with
        | .fault => .fault
        | .ret rc tor1 => if rc ≠ 0 then .ret (-1) tor1 else .ret 0 tor1
      else .ret 0 tor
    | _ => .ret 0 tor

/-- One round of the `TAILQ_FOREACH` of `load_torrent`.  Every entry reaches a
`strcmp` on its key. -/
def load_torrent_step (tor : torrent) (ben : bencode) : Loaded torrent :=
  match ben with
  | .BET_STRING k _ =>
    match k with
    | none => .fault
    | some key =>
      if tor.to_comment.isNone ∧ streq key "comment" then
        .ret 0 { tor with to_comment := be_strdup ben }
      else if tor.to_creator.isNone ∧ streq key "created by" then
        .ret 0 { tor with to_creator := be_strdup ben }
      else load_torrent_rest tor key ben
  | .BET_INTEGER k n =>
    match k with
    | none => .fault
    | some key =>
      if streq key "creation date" then .ret 0 { tor with to_createdat := n }
      else load_torrent_rest tor key ben
  | .BET_LIST k _ =>
    match k with
    | none => .fault
    | some key => load_torrent_rest tor key ben
  | .BET_DICT k _ =>
    match k with
    | none => .fault
    | some key => load_torrent_rest tor key ben

/-- The function `load_torrent`.  It walks `be->be_dict` whatever the type of
`be` is; for a node that is no dictionary and no list the union holds no
queue. -/
def load_torrent (tor : torrent) : bencode → Loaded torrent
  | .BET_DICT _ l => walk load_torrent_step tor l
  | .BET_LIST _ l => walk load_torrent_step tor l
  | _ => .fault

/-- The call did not succeed: it read through a null pointer or it returned
`-1`. -/
def not_loaded {σ : Type} : Loaded σ → Prop
  | .fault => True
  | .ret rc _ => rc = -1

/-- The entry is a list with the key `files`. -/
def is_files : bencode → Bool
  | .BET_LIST (some key) _ => streq key "files"
  | _ => false

/-- The entry is a string with the key `name`. -/
def is_name : bencode → Bool
  | .BET_STRING (some key) _ => streq key "name"
  | _ => false

/-- The entry is an integer with the key `length` and a value above 0. -/
def is_length_pos : bencode → Bool
  | .BET_INTEGER (some key) n => streq key "length" && decide (0 < n)
  | _ => false

/-- The member `be_dictkey` of a node. -/
def bencode.dictkey_of : bencode → Option (List Nat)
  | .BET_DICT k _ => k
  | .BET_LIST k _ => k
  | .BET_INTEGER k _ => k
  | .BET_STRING k _ => k

/-- The key, read as a C string, is none of the keys that `load_torrent`
compares with. -/
def unknown_key (key : List Nat) : Bool :=
  !streq key "announce" && !streq key "announce-list" && !streq key "comment" &&
    !streq key "created by" && !streq key "creation date" && !streq key "info"

/-- The key of a dictionary entry as the decoder stores it in `be_dictkey`: the
bytes of the key and the terminator. -/
def dictkey (s : String) : Option (List Nat) := some (bytes s ++ [0])

/-- The string node that the decoder builds for the bytes `s`: no buffer for
no bytes, otherwise the bytes and the terminator. -/
def string_node (k : Option (List Nat)) (s : List Nat) : bencode :=
  .BET_STRING k (if s = [] then none else some (s ++ [0]))

/-- One element of a list `files`: the key that the node carries (none in a
list), whether `path` stands before `length`, the bytes of the first element
of the list `path`, the elements after it, and the length. -/
structure file_spec where
  key : Option (List Nat)
  path_first : Bool
  path : List Nat
  more : List bencode
  length : Nat

/-- The dictionary node of one file. -/
def file_dict (f : file_spec) : bencode :=
  .BET_DICT f.key
    (if f.path_first then
      [.BET_LIST (dictkey "path") (string_node none f.path :: f.more),
        .BET_INTEGER (dictkey "length") (f.length : Int)]
    else
      [.BET_INTEGER (dictkey "length") (f.length : Int),
        .BET_LIST (dictkey "path") (string_node none f.path :: f.more)])

/-- The entry of the descriptor's file list for one file. -/
def file_entry (f : file_spec) : tfile := ⟨f.path ++ [0], f.length⟩

/-- An entry of a dictionary `info` next to its list `files`: it has a key
when its type makes `load_info` compare the key, it is no list `files`, and
it is no integer `length` or `piece length` that is not above 0.  The string
`name` and a positive integer `length` are such entries. -/
def info_extra_ok : bencode → Bool
  | .BET_DICT _ _ => true
  | .BET_LIST (some key) _ => !streq key "files"
  | .BET_INTEGER (some key) n =>
    if streq key "piece length" || streq key "length" then decide (0 < n) else true
  | .BET_STRING (some _) _ => true
  | _ => false

/-- One tier of an `announce-list`: the key that the node carries (none in a
list), the bytes of its first URL, and the elements after it. -/
structure tier_spec where
  key : Option (List Nat)
  url : List Nat
  more : List bencode

/-- The list node of one tier. -/
def tier_node (t : tier_spec) : bencode :=
  .BET_LIST t.key (string_node none t.url :: t.more)

/-- The tracker with the first URL of a tier. -/
def tier_tracker (t : tier_spec) : tracker := ⟨t.url ++ [0]⟩

/-! ## The C library: facts -/

theorem decimal_ofNat (m : Nat) :
    decimal (Int.ofNat m) = (Nat.toDigits 10 m).map Char.toNat := rfl

theorem decimal_negSucc (m : Nat) :
    decimal (Int.negSucc m) = 45 :: (Nat.toDigits 10 (m + 1)).map Char.toNat := rfl

theorem digitChar_toNat (d : Nat) (h : d < 10) : (Nat.digitChar d).toNat = 48 + d := by
  interval_cases d <;> rfl

theorem digits_value_append (ds : List Nat) (d : Nat) :
    digits_value (ds ++ [d]) = 10 * digits_value ds + (d - 48) := by
  simp [digits_value, List.foldl_append]

/-- The digits that `Nat.toDigitsCore` puts in front of its accumulator: a
non-empty run of decimal digits whose value is the number, without a leading
zero unless the number is zero. -/
theorem toDigitsCore_spec : ∀ (f n : Nat) (acc : List Char), n < f →
    ∃ ds : List Char, Nat.toDigitsCore 10 f n acc = ds ++ acc ∧ ds ≠ [] ∧
      (∀ c ∈ ds, isdigit c.toNat = true) ∧ digits_value (ds.map Char.toNat) = n ∧
      (0 < n → ds.head? ≠ some (Char.ofNat 48)) := by
  intro f
  induction f with
  | zero => intro n acc h; omega
  | succ f ih =>
    intro n acc h
    have hd : (Nat.digitChar (n % 10)).toNat = 48 + n % 10 :=
      digitChar_toNat _ (Nat.mod_lt _ (by omega))
    by_cases h0 : n / 10 = 0
    · refine ⟨[Nat.digitChar (n % 10)], ?_, by simp, ?_, ?_, ?_⟩
      · simp [Nat.toDigitsCore, h0]
      · intro c hc
        simp only [List.mem_singleton] at hc
        subst hc
        rw [hd]
        simp [isdigit]
        omega
      · simp [digits_value, hd]
        omega
      · intro hn hh
        simp only [List.head?_cons, Option.some.injEq] at hh
        have := congrArg Char.toNat hh
        rw [hd] at this
        have h48 : (Char.ofNat 48).toNat = 48 := rfl
        omega
    · obtain ⟨ds, h1, h2, h3, h4, h5⟩ := ih (n / 10) (Nat.digitChar (n % 10) :: acc) (by omega)
      refine ⟨ds ++ [Nat.digitChar (n % 10)], ?_, by simp, ?_, ?_, ?_⟩
      · simp [Nat.toDigitsCore, h0, h1]
      · intro c hc
        rcases List.mem_append.1 hc with hc | hc
        · exact h3 c hc
        · simp only [List.mem_singleton] at hc
          subst hc
          rw [hd]
          simp [isdigit]
          omega
      · rw [List.map_append, List.map_singleton, digits_value_append, h4, hd]
        omega
      · intro hn
        have := h5 (by omega)
        cases ds with
        | nil => exact absurd rfl h2
        | cons a t => simpa using this

/-- The decimal text of a natural number: see `toDigitsCore_spec`. -/
theorem toDigits_spec (n : Nat) :
    ∃ ds : List Nat, (Nat.toDigits 10 n).map Char.toNat = ds ∧ ds ≠ [] ∧
      (∀ c ∈ ds, isdigit c = true) ∧ digits_value ds = n ∧
      (0 < n → ds.head? ≠ some 48) := by
  obtain ⟨ds, h1, h2, h3, h4, h5⟩ := toDigitsCore_spec (n + 1) n [] (by omega)
  refine ⟨ds.map Char.toNat, ?_, by simpa using h2, ?_, h4, ?_⟩
  · simp [Nat.toDigits, h1]
  · intro c hc
    obtain ⟨a, ha, rfl⟩ := List.mem_map.1 hc
    exact h3 a ha
  · intro hn hh
    apply h5 hn
    cases ds with
    | nil => simp at hh
    | cons a t =>
      simp only [List.map_cons, List.head?_cons, Option.some.injEq] at hh ⊢
      apply Char.ext
      apply UInt32.ext
      exact hh

theorem takeWhile_digits (ds : List Nat) (c : Nat) (rest : List Nat)
    (hds : ∀ d ∈ ds, isdigit d = true) (hc : isdigit c = false) :
    (ds ++ c :: rest).takeWhile isdigit = ds := by
  induction ds with
  | nil => simp [List.takeWhile, hc]
  | cons a t ih =>
    have ha := hds a (List.mem_cons_self _ _)
    simp only [List.cons_append, List.takeWhile_cons, ha, if_true]
    rw [ih (fun d hd => hds d (List.mem_cons_of_mem _ hd))]

/-- On a non-empty digit run that a non-digit byte `c` ends, `strtoll` returns
the (clamped) value of the run and stops at `c`. -/
theorem strtoll_digits (einval : Bool) (pre ds : List Nat) (c : Nat) (rest : List Nat)
    (hne : ds ≠ []) (hds : ∀ d ∈ ds, isdigit d = true) (hc : isdigit c = false) :
    strtoll einval (pre ++ ds ++ c :: rest) pre.length =
      some (clamp false (digits_value ds) (pre.length + ds.length)) := by
  cases ds with
  | nil => exact absurd rfl hne
  | cons a t =>
    have ha := hds a (List.mem_cons_self _ _)
    have ha' : 48 ≤ a ∧ a ≤ 57 := by simpa [isdigit] using ha
    have hsp : isspace a = false := by
      simp only [isspace, Bool.or_eq_false_iff, beq_eq_false_iff_ne, Bool.and_eq_false_iff,
        decide_eq_false_iff_not]
      omega
    have h45 : (a == 45) = false := by simp only [beq_eq_false_iff_ne]; omega
    have h43 : (a == 43) = false := by simp only [beq_eq_false_iff_ne]; omega
    have htw := takeWhile_digits (a :: t) c rest hds hc
    have hdrop : (pre ++ (a :: t) ++ c :: rest).drop pre.length = a :: (t ++ c :: rest) := by
      simp
    have hd2 : (a :: (t ++ c :: rest)).drop (t.length + 1) = c :: rest := by
      simp
    simp only [List.cons_append] at htw
    simp only [strtoll, hdrop, count_space, hsp, List.drop_zero, h45, h43, Bool.or_self, htw, hd2,
      Bool.false_eq_true, if_false, List.length_cons, Nat.succ_ne_zero, Nat.add_zero,
      Nat.add_eq_zero, and_false, one_ne_zero]

/-- The same behind a minus sign. -/
theorem strtoll_minus_digits (einval : Bool) (pre ds : List Nat) (c : Nat) (rest : List Nat)
    (hne : ds ≠ []) (hds : ∀ d ∈ ds, isdigit d = true) (hc : isdigit c = false) :
    strtoll einval (pre ++ 45 :: ds ++ c :: rest) pre.length =
      some (clamp true (digits_value ds) (pre.length + 1 + ds.length)) := by
  cases ds with
  | nil => exact absurd rfl hne
  | cons a t =>
    have hsp : isspace 45 = false := by decide
    have htw := takeWhile_digits (a :: t) c rest hds hc
    have hdrop : (pre ++ 45 :: (a :: t) ++ c :: rest).drop pre.length =
        45 :: a :: (t ++ c :: rest) := by
      simp
    have hd2 : (a :: (t ++ c :: rest)).drop (t.length + 1) = c :: rest := by
      simp
    simp only [List.cons_append] at htw
    simp only [strtoll, hdrop, count_space, hsp, List.drop_zero, htw, hd2,
      Bool.false_eq_true, if_false, List.length_cons, Nat.succ_ne_zero, Nat.add_zero,
      Nat.add_eq_zero, and_false, one_ne_zero, beq_self_eq_true, Bool.true_or, if_true]

/-! ## The decoder: dispatch -/

theorem getElem?_append_cons (a b : List Nat) (x k : Nat) (hk : k = a.length) :
    (a ++ x :: b)[k]? = some x := by
  subst hk
  rw [List.getElem?_append_right (Nat.le_refl _)]
  simp

theorem be_parse_bp_digit (einval : Bool) (mem : List Nat) (bp_end fuel bp_cur c : Nat)
    (hc : mem[bp_cur]? = some c) (hd : isdigit c = true) (hlt : bp_cur < bp_end) :
    be_parse_bp einval mem bp_end (fuel + 1) bp_cur = be_parse_string einval mem bp_cur := by
  have h0 : c ≠ 0 := by
    intro h
    subst h
    simp [isdigit] at hd
  simp [be_parse_bp, hc, h0, hd, Nat.not_le.2 hlt]

theorem be_parse_bp_i (einval : Bool) (mem : List Nat) (bp_end fuel bp_cur : Nat)
    (hc : mem[bp_cur]? = some 105) (hlt : bp_cur < bp_end) :
    be_parse_bp einval mem bp_end (fuel + 1) bp_cur = be_parse_integer einval mem bp_cur := by
  simp [be_parse_bp, hc, isdigit, Nat.not_le.2 hlt]

theorem be_parse_bp_l (einval : Bool) (mem : List Nat) (bp_end fuel bp_cur : Nat)
    (hc : mem[bp_cur]? = some 108) (hlt : bp_cur < bp_end) :
    be_parse_bp einval mem bp_end (fuel + 1) bp_cur =
      be_parse_list einval mem bp_end fuel bp_cur := by
  simp [be_parse_bp, be_parse_list, hc, isdigit, Nat.not_le.2 hlt]

theorem be_parse_bp_d (einval : Bool) (mem : List Nat) (bp_end fuel bp_cur : Nat)
    (hc : mem[bp_cur]? = some 100) (hlt : bp_cur < bp_end) :
    be_parse_bp einval mem bp_end (fuel + 1) bp_cur =
      be_parse_dict einval mem bp_end fuel bp_cur := by
  simp [be_parse_bp, be_parse_dict, hc, isdigit, Nat.not_le.2 hlt]

theorem be_parse_bp_other (einval : Bool) (mem : List Nat) (bp_end fuel bp_cur c : Nat)
    (hc : mem[bp_cur]? = some c) (hd : isdigit c = false)
    (hi : c ≠ 105) (hl : c ≠ 108) (hdd : c ≠ 100) :
    be_parse_bp einval mem bp_end (fuel + 1) bp_cur = .done none bp_cur := by
  simp [be_parse_bp, hc, hd, hi, hl, hdd]

theorem be_parse_bp_oob (einval : Bool) (mem : List Nat) (bp_end fuel bp_cur : Nat)
    (hc : mem[bp_cur]? = none) :
    be_parse_bp einval mem bp_end (fuel + 1) bp_cur = .fault := by
  simp [be_parse_bp, hc]

theorem be_parse_bp_stop (einval : Bool) (mem : List Nat) (bp_end fuel bp_cur c : Nat)
    (hc : mem[bp_cur]? = some c) (h : c = 0 ∨ bp_end ≤ bp_cur) :
    be_parse_bp einval mem bp_end (fuel + 1) bp_cur = .done none bp_cur := by
  simp [be_parse_bp, hc, h]

theorem be_nparse_pos (einval : Bool) (mem : List Nat) (slen : Nat) (h : 0 < slen) :
    be_nparse einval mem slen = be_run einval mem slen := by
  simp [be_nparse, Nat.pos_iff_ne_zero.1 h]

/-! ## Integers -/

/-- An integer token with any non-empty digit run, leading zeros included, and
an optional minus sign decodes to the value of the digits when that is in
range. -/
theorem be_parse_integer_digits (einval : Bool) (neg : Bool) (pre ds rest : List Nat)
    (hne : ds ≠ []) (hds : ∀ d ∈ ds, isdigit d = true)
    (hlo : LLONG_MIN ≤ (if neg then -(digits_value ds : Int) else (digits_value ds : Int)))
    (hhi : (if neg then -(digits_value ds : Int) else (digits_value ds : Int)) ≤ LLONG_MAX) :
    be_parse_integer einval
        (pre ++ 105 :: ((if neg then [45] else []) ++ ds ++ 101 :: rest)) pre.length =
      .done (some (.BET_INTEGER none
          (if neg then -(digits_value ds : Int) else (digits_value ds : Int))))
        (pre.length + 1 + (if neg then 1 else 0) + ds.length + 1) := by
  have h101 : isdigit 101 = false := by decide
  cases neg with
  | false =>
    have hs := strtoll_digits einval (pre ++ [105]) ds 101 rest hne hds h101
    simp only [List.length_append, List.length_singleton, List.append_assoc,
      List.singleton_append, List.cons_append, List.nil_append] at hs
    simp only [Bool.false_eq_true, if_false] at hlo hhi
    have hcl : clamp false (digits_value ds) (pre.length + 1 + ds.length) =
        ⟨(digits_value ds : Int), pre.length + 1 + ds.length, false⟩ := by
      simp [clamp, Int.not_lt.2 hlo, Int.not_lt.2 hhi]
    have hget : (pre ++ 105 :: (ds ++ 101 :: rest))[pre.length + 1 + ds.length]? = some 101 := by
      have : pre ++ 105 :: (ds ++ 101 :: rest) = (pre ++ 105 :: ds) ++ 101 :: rest := by simp
      rw [this]
      exact getElem?_append_cons _ _ _ _ (by simp; omega)
    simp only [be_parse_integer, Bool.false_eq_true, if_false, List.nil_append, hs, hcl, hget]
    simp
  | true =>
    have hs := strtoll_minus_digits einval (pre ++ [105]) ds 101 rest hne hds h101
    simp only [List.length_append, List.length_singleton, List.append_assoc,
      List.singleton_append, List.cons_append, List.nil_append] at hs
    simp only [if_true] at hlo hhi
    have hcl : clamp true (digits_value ds) (pre.length + 1 + 1 + ds.length) =
        ⟨-(digits_value ds : Int), pre.length + 1 + 1 + ds.length, false⟩ := by
      simp [clamp, Int.not_lt.2 hlo, Int.not_lt.2 hhi]
    have hget : (pre ++ 105 :: 45 :: (ds ++ 101 :: rest))[pre.length + 1 + 1 + ds.length]? =
        some 101 := by
      have : pre ++ 105 :: 45 :: (ds ++ 101 :: rest) = (pre ++ 105 :: 45 :: ds) ++ 101 :: rest := by
        simp
      rw [this]
      exact getElem?_append_cons _ _ _ _ (by simp; omega)
    simp only [be_parse_integer, if_true, List.singleton_append, List.cons_append,
      List.append_assoc, List.nil_append, hs, hcl, hget]
    simp

/-- C1.  For every signed 64-bit integer `n`, the input `i`, the canonical
base-10 text of `n`, `e` decodes to the integer node with value `n`, whatever
follows the input in memory. -/
theorem C1_integer_roundtrip (einval : Bool) (n : Int) (rest : List Nat)
    (hlo : -(2 ^ 63) ≤ n) (hhi : n < 2 ^ 63) :
    be_nparse einval (105 :: (decimal n ++ 101 :: rest)) ((decimal n).length + 2) =
      .ret (some (.BET_INTEGER none n)) := by
  rw [be_nparse_pos _ _ _ (by omega)]
  have hfuel : 2 * ((decimal n).length + 2) + 2 = (2 * (decimal n).length + 5) + 1 := by omega
  unfold be_run
  rw [hfuel, be_parse_bp_i _ _ _ _ _ (by simp) (by omega)]
  cases n with
  | ofNat m =>
    obtain ⟨ds, h1, h2, h3, h4, _⟩ := toDigits_spec m
    have := be_parse_integer_digits einval false [] ds rest h2 h3
      (by simp [LLONG_MIN]; omega)
      (by simp only [Bool.false_eq_true, if_false, LLONG_MAX, h4]
          have : ((m : Nat) : Int) < 2 ^ 63 := hhi
          omega)
    simp only [List.nil_append, Bool.false_eq_true, if_false, List.length_nil] at this
    rw [decimal_ofNat, h1, this, h4]
    rfl
  | negSucc m =>
    obtain ⟨ds, h1, h2, h3, h4, _⟩ := toDigits_spec (m + 1)
    have hlo' : -(2 ^ 63 : Int) ≤ -((m : Int) + 1) := by
      have := hlo
      rw [Int.negSucc_eq] at this
      exact this
    have := be_parse_integer_digits einval true [] ds rest h2 h3
      (by simp only [if_true, LLONG_MIN, h4]
          push_cast
          omega)
      (by simp only [if_true, LLONG_MAX, h4]
          push_cast
          omega)
    simp only [List.nil_append, if_true, List.length_nil, List.singleton_append,
      List.cons_append] at this
    rw [decimal_negSucc, h1, List.cons_append, this, h4]
    simp [Int.negSucc_eq]

/-- C1, at 42 and at -3: `i42e` and `i-3e`. -/
theorem C1_integer_roundtrip_witness :
    (-(2 ^ 63) ≤ (42 : Int) ∧ (42 : Int) < 2 ^ 63) ∧
    be_nparse false (bytes "i42e") 4 = .ret (some (.BET_INTEGER none 42)) ∧
    be_nparse true (bytes "i-3e" ++ bytes "junk") 4 = .ret (some (.BET_INTEGER none (-3))) :=
  ⟨by decide, C1_integer_roundtrip false 42 [] (by decide) (by decide),
   C1_integer_roundtrip true (Int.negSucc 2) (bytes "junk") (by decide) (by decide)⟩

/-! ## Byte strings -/

/-- A length in decimal digits, one byte that is not a digit (the code does not
look at it), and at least that many bytes: `parse_string` copies exactly that
many bytes, adds the terminator, and leaves the cursor after them. -/
theorem parse_string_digits (einval : Bool) (pre ds : List Nat) (sep : Nat) (b rest : List Nat)
    (hne : ds ≠ []) (hds : ∀ d ∈ ds, isdigit d = true) (hsep : isdigit sep = false)
    (hpos : 0 < digits_value ds) (hlen : b.length = digits_value ds)
    (hmax : digits_value ds < 2 ^ 63) :
    parse_string einval (pre ++ (ds ++ sep :: (b ++ rest))) pre.length =
      .done (some (some (b ++ [0]))) (pre.length + ds.length + 1 + b.length) := by
  have hs := strtoll_digits einval pre ds sep (b ++ rest) hne hds hsep
  have hcl : clamp false (digits_value ds) (pre.length + ds.length) =
      ⟨(digits_value ds : Int), pre.length + ds.length, false⟩ := by
    have h1 : ¬ ((digits_value ds : Int) < LLONG_MIN) := by
      simp only [LLONG_MIN]
      omega
    have h2 : ¬ (LLONG_MAX < (digits_value ds : Int)) := by
      simp only [LLONG_MAX]
      omega
    simp [clamp, h1, h2]
  have hdrop : (pre ++ (ds ++ sep :: (b ++ rest))).drop (pre.length + ds.length + 1) =
      b ++ rest := by
    have : pre ++ (ds ++ sep :: (b ++ rest)) = (pre ++ ds ++ [sep]) ++ (b ++ rest) := by simp
    rw [this]
    exact List.drop_left' (by simp; omega)
  have hnn : ¬ ((digits_value ds : Int) < 0) := by omega
  have hnz : ¬ ((digits_value ds : Int) = 0) := by omega
  have hp : (0 : Int) < (digits_value ds : Int) := by omega
  rw [List.append_assoc] at hs
  have htake : List.take (digits_value ds) (b ++ rest) = b := by
    rw [← hlen]
    exact List.take_left _ _
  have hfit : pre.length + ds.length + 1 + digits_value ds ≤
      (pre ++ (ds ++ sep :: (b ++ rest))).length := by
    simp only [List.length_append, List.length_cons]
    omega
  simp only [parse_string, hs, hcl, hnn, hnz, false_and, or_self, if_false, hp, if_true,
    Int.toNat_ofNat, hdrop, htake, hfit, hlen]

/-- The canonical text of a natural number is a digit run with that value. -/
theorem decimal_natCast (n : Nat) :
    (decimal (n : Int)) ≠ [] ∧ (∀ d ∈ decimal (n : Int), isdigit d = true) ∧
      digits_value (decimal (n : Int)) = n := by
  obtain ⟨ds, h1, h2, h3, h4, _⟩ := toDigits_spec n
  have : decimal (n : Int) = ds := h1
  rw [this]
  exact ⟨h2, h3, h4⟩

/-- C2.  For every `n ≥ 1` (below the 2^63 that bounds any object size) and
every `n` bytes `b`, NUL and other bytes included, the input made of the
decimal text of `n`, a colon and `b` decodes to the string node whose buffer
is `b` followed by the terminator. -/
theorem C2_string_roundtrip (einval : Bool) (n : Nat) (b rest : List Nat)
    (hn : 1 ≤ n) (hlen : b.length = n) (hmax : n < 2 ^ 63) :
    be_nparse einval (decimal (n : Int) ++ 58 :: (b ++ rest))
        ((decimal (n : Int)).length + 1 + n) =
      .ret (some (.BET_STRING none (some (b ++ [0])))) := by
  obtain ⟨h2, h3, h4⟩ := decimal_natCast n
  rw [be_nparse_pos _ _ _ (by omega)]
  have hfuel : 2 * ((decimal (n : Int)).length + 1 + n) + 2 =
      (2 * ((decimal (n : Int)).length + 1 + n) + 1) + 1 := by omega
  have hps := parse_string_digits einval [] (decimal (n : Int)) 58 b rest h2 h3 (by decide)
    (by omega) (by omega) (by omega)
  simp only [List.nil_append, List.length_nil] at hps
  have hhead : ∃ c, (decimal (n : Int) ++ 58 :: (b ++ rest))[0]? = some c ∧ isdigit c = true := by
    cases hd : decimal (n : Int) with
    | nil => exact absurd hd h2
    | cons a t =>
      refine ⟨a, by simp, h3 a ?_⟩
      rw [hd]
      exact List.mem_cons_self _ _
  obtain ⟨c, hc1, hc2⟩ := hhead
  unfold be_run
  rw [hfuel, be_parse_bp_digit _ _ _ _ _ c hc1 hc2 (by omega)]
  simp [be_parse_string, hps]

/-- C2, at three bytes with a NUL and a byte above 127 among them. -/
theorem C2_string_roundtrip_witness :
    (1 ≤ 3 ∧ [0, 255, 97].length = 3 ∧ 3 < 2 ^ 63) ∧
    be_nparse false [51, 58, 0, 255, 97] 5 = .ret (some (.BET_STRING none (some [0, 255, 97, 0]))) :=
  ⟨by decide, C2_string_roundtrip false 3 [0, 255, 97] [] (by decide) rfl (by decide)⟩

/-! ## A run that stays inside its input runs the same anywhere

The input `m` is decoded by itself (`mem = m`, `bp_end = m.length`).  When that
run returns, without a read outside `m`, the run on `pre ++ (m ++ post)` from
the address `pre.length` on returns the same, for any `bp_end` that covers
`m` and any larger fuel. -/

theorem getElem?_frame (pre m post : List Nat) (i c : Nat) (h : m[i]? = some c) :
    (pre ++ (m ++ post))[pre.length + i]? = some c := by
  have hi : i < m.length := by
    by_contra hcon
    rw [List.getElem?_eq_none (Nat.not_lt.1 hcon)] at h
    exact Option.noConfusion h
  rw [List.getElem?_append_right (Nat.le_add_right _ _), Nat.add_sub_cancel_left,
    List.getElem?_append_left hi]
  exact h

theorem drop_frame (pre m post : List Nat) (i : Nat) (h : i ≤ m.length) :
    (pre ++ (m ++ post)).drop (pre.length + i) = m.drop i ++ post := by
  rw [List.drop_append, List.drop_append_of_le_length h]

theorem count_space_append (s post : List Nat) (h : s.drop (count_space s) ≠ []) :
    count_space (s ++ post) = count_space s := by
  induction s with
  | nil => simp [count_space] at h
  | cons a t ih =>
    by_cases ha : isspace a = true
    · simp only [count_space, ha, if_true, List.drop_succ_cons] at h
      simp [count_space, ha, ih h]
    · simp [count_space, ha]

theorem takeWhile_append_stop (p : Nat → Bool) (s post : List Nat)
    (h : s.drop (s.takeWhile p).length ≠ []) :
    (s ++ post).takeWhile p = s.takeWhile p := by
  induction s with
  | nil => simp at h
  | cons a t ih =>
    by_cases ha : p a = true
    · simp only [List.takeWhile_cons, ha, if_true, List.length_cons, List.drop_succ_cons] at h
      simp [List.takeWhile_cons, ha, ih h]
    · simp [List.takeWhile_cons, ha]

theorem clamp_endptr (neg : Bool) (v e : Nat) : (clamp neg v e).endptr = e := by
  simp only [clamp]
  split_ifs <;> rfl

theorem clamp_shift (neg : Bool) (v e k : Nat) :
    (⟨(clamp neg v e).num, k + (clamp neg v e).endptr, (clamp neg v e).errno⟩ : strtoll_ret) =
      clamp neg v (k + e) := by
  simp only [clamp]
  split_ifs <;> rfl

/-- The result of `strtoll` depends on the bytes from `nptr` on only. -/
theorem strtoll_drop (einval : Bool) (mem : List Nat) (nptr : Nat) :
    strtoll einval mem nptr =
      (strtoll einval (mem.drop nptr) 0).map
        (fun r => ⟨r.num, nptr + r.endptr, r.errno⟩) := by
  simp only [strtoll, List.drop_zero]
  cases h1 : (mem.drop nptr).drop (count_space (mem.drop nptr)) with
  | nil => rfl
  | cons c t =>
    simp only []
    split
    · rfl
    · split_ifs <;> simp [clamp_shift, Nat.add_assoc]

/-- Bytes after a scan that stopped do not change what `strtoll` returns. -/
theorem strtoll_append (einval : Bool) (s post : List Nat) (r : strtoll_ret)
    (h : strtoll einval s 0 = some r) : strtoll einval (s ++ post) 0 = some r := by
  simp only [strtoll, List.drop_zero] at h ⊢
  have h1 : s.drop (count_space s) ≠ [] := by
    intro hcon
    rw [hcon] at h
    exact Option.noConfusion h
  rw [count_space_append s post h1, List.drop_append_of_le_length (by
    by_contra hcon
    exact h1 (List.drop_eq_nil_of_le (by omega)))]
  cases hd : s.drop (count_space s) with
  | nil => exact absurd hd h1
  | cons c t =>
    rw [hd] at h
    simp only [List.cons_append] at h ⊢
    have hbody : (if (c == 45 || c == 43) = true then t ++ post else c :: (t ++ post)) =
        (if (c == 45 || c == 43) = true then t else c :: t) ++ post := by
      split_ifs <;> simp
    rw [hbody]
    generalize (if (c == 45 || c == 43) = true then t else c :: t) = body at h ⊢
    have h2 : body.drop (body.takeWhile isdigit).length ≠ [] := by
      intro hcon
      rw [hcon] at h
      exact Option.noConfusion h
    rw [takeWhile_append_stop isdigit body post h2, List.drop_append_of_le_length (by
      by_contra hcon
      exact h2 (List.drop_eq_nil_of_le (by omega)))]
    cases hb : body.drop (body.takeWhile isdigit).length with
    | nil => exact absurd hb h2
    | cons x y =>
      rw [hb] at h
      simpa using h

theorem strtoll_frame (einval : Bool) (pre m post : List Nat) (cur : Nat) (r : strtoll_ret)
    (h : strtoll einval m cur = some r) :
    strtoll einval (pre ++ (m ++ post)) (pre.length + cur) =
      some ⟨r.num, pre.length + r.endptr, r.errno⟩ := by
  have hle : cur ≤ m.length := by
    by_contra hcon
    have : m.drop cur = [] := List.drop_eq_nil_of_le (by omega)
    rw [strtoll_drop, this] at h
    simp [strtoll, count_space] at h
  rw [strtoll_drop] at h
  rw [strtoll_drop, drop_frame pre m post cur hle]
  cases h0 : strtoll einval (m.drop cur) 0 with
  | none => rw [h0] at h; exact Option.noConfusion h
  | some r0 =>
    rw [h0] at h
    rw [strtoll_append einval _ post r0 h0]
    simp only [Option.map_some', Option.some.injEq] at h ⊢
    subst h
    simp [Nat.add_assoc]

theorem parse_string_frame (einval : Bool) (pre m post : List Nat) (cur : Nat)
    (r : Option (Option (List Nat))) (cur' : Nat)
    (h : parse_string einval m cur = .done r cur') :
    parse_string einval (pre ++ (m ++ post)) (pre.length + cur) =
      .done r (pre.length + cur') := by
  unfold parse_string at h ⊢
  cases h0 : strtoll einval m cur with
  | none => rw [h0] at h; exact Outcome.noConfusion h
  | some r0 =>
    rw [h0] at h
    rw [strtoll_frame einval pre m post cur r0 h0]
    simp only [] at h ⊢
    by_cases hf : r0.num < 0 ∨ (r0.num = 0 ∧ r0.errno = true)
    · rw [if_pos hf] at h ⊢
      cases h
      rfl
    · rw [if_neg hf] at h ⊢
      by_cases hp : 0 < r0.num
      · rw [if_pos hp] at h ⊢
        by_cases hfit : r0.endptr + 1 + r0.num.toNat ≤ m.length
        · rw [if_pos hfit] at h
          have hfit' : pre.length + r0.endptr + 1 + r0.num.toNat ≤
              (pre ++ (m ++ post)).length := by
            simp only [List.length_append]
            omega
          rw [if_pos hfit']
          have hd := drop_frame pre m post (r0.endptr + 1) (by omega)
          rw [← Nat.add_assoc] at hd
          rw [hd, List.take_append_of_le_length (by rw [List.length_drop]; omega)]
          cases h
          simp [Nat.add_assoc]
        · rw [if_neg hfit] at h
          exact Outcome.noConfusion h
      · rw [if_neg hp] at h ⊢
        cases h
        simp [Nat.add_assoc]

theorem be_parse_string_frame (einval : Bool) (pre m post : List Nat) (cur : Nat)
    (r : Option bencode) (cur' : Nat)
    (h : be_parse_string einval m cur = .done r cur') :
    be_parse_string einval (pre ++ (m ++ post)) (pre.length + cur) =
      .done r (pre.length + cur') := by
  unfold be_parse_string at h ⊢
  cases h0 : parse_string einval m cur with
  | nofuel => rw [h0] at h; exact Outcome.noConfusion h
  | fault => rw [h0] at h; exact Outcome.noConfusion h
  | done r0 c0 =>
    rw [h0] at h
    rw [parse_string_frame einval pre m post cur r0 c0 h0]
    cases r0 with
    | none => cases h; rfl
    | some dst => cases h; rfl

theorem be_parse_integer_frame (einval : Bool) (pre m post : List Nat) (cur : Nat)
    (r : Option bencode) (cur' : Nat)
    (h : be_parse_integer einval m cur = .done r cur') :
    be_parse_integer einval (pre ++ (m ++ post)) (pre.length + cur) =
      .done r (pre.length + cur') := by
  unfold be_parse_integer at h ⊢
  simp only [] at h ⊢
  cases h0 : strtoll einval m (cur + 1) with
  | none => rw [h0] at h; exact Outcome.noConfusion h
  | some r0 =>
    rw [h0] at h
    rw [Nat.add_assoc, strtoll_frame einval pre m post (cur + 1) r0 h0]
    simp only [] at h ⊢
    by_cases hf : r0.num = 0 ∧ r0.errno = true
    · rw [if_pos hf] at h ⊢
      cases h
      rfl
    · rw [if_neg hf] at h ⊢
      cases hg : m[r0.endptr]? with
      | none => rw [hg] at h; exact Outcome.noConfusion h
      | some c =>
        rw [hg] at h
        rw [getElem?_frame pre m post r0.endptr c hg]
        simp only [] at h ⊢
        by_cases hc : c ≠ 101
        · rw [if_pos hc] at h ⊢
          cases h
          rfl
        · rw [if_neg hc] at h ⊢
          cases h
          simp [Nat.add_assoc]

theorem getElem?_lt (m : List Nat) (i c : Nat) (h : m[i]? = some c) : i < m.length := by
  by_contra hcon
  rw [List.getElem?_eq_none (Nat.not_lt.1 hcon)] at h
  exact Option.noConfusion h

/-- The frame statement for `be_parse_bp`, the list loop and the dictionary
loop together, by induction on the fuel. -/
theorem frame_all (einval : Bool) (m : List Nat) : ∀ fuel : Nat,
    (∀ cur r cur', be_parse_bp einval m m.length fuel cur = .done r cur' →
      ∀ pre post fuel' bp_end, fuel ≤ fuel' → pre.length + m.length ≤ bp_end →
        be_parse_bp einval (pre ++ (m ++ post)) bp_end fuel' (pre.length + cur) =
          .done r (pre.length + cur')) ∧
    (∀ cur acc r cur', list_loop einval m m.length fuel cur acc = .done r cur' →
      ∀ pre post fuel' bp_end, fuel ≤ fuel' → pre.length + m.length ≤ bp_end →
        list_loop einval (pre ++ (m ++ post)) bp_end fuel' (pre.length + cur) acc =
          .done r (pre.length + cur')) ∧
    (∀ cur acc r cur', dict_loop einval m m.length fuel cur acc = .done r cur' →
      ∀ pre post fuel' bp_end, fuel ≤ fuel' → pre.length + m.length ≤ bp_end →
        dict_loop einval (pre ++ (m ++ post)) bp_end fuel' (pre.length + cur) acc =
          .done r (pre.length + cur')) := by
  intro fuel
  induction fuel with
  | zero =>
    refine ⟨?_, ?_, ?_⟩
    · intro cur r cur' h
      simp [be_parse_bp] at h
    · intro cur acc r cur' h
      simp [list_loop] at h
    · intro cur acc r cur' h
      simp [dict_loop] at h
  | succ f ih =>
    obtain ⟨ihb, ihl, ihd⟩ := ih
    refine ⟨?_, ?_, ?_⟩
    · intro cur r cur' h pre post fuel' bp_end hf hend
      obtain ⟨f', rfl⟩ : ∃ f', fuel' = f' + 1 := ⟨fuel' - 1, by omega⟩
      cases hg : m[cur]? with
      | none => rw [be_parse_bp_oob _ _ _ _ _ hg] at h; exact Outcome.noConfusion h
      | some c =>
        have hlt := getElem?_lt m cur c hg
        have hg' := getElem?_frame pre m post cur c hg
        by_cases h0 : c = 0
        · rw [be_parse_bp_stop _ _ _ _ _ c hg (Or.inl h0)] at h
          rw [be_parse_bp_stop _ _ _ _ _ c hg' (Or.inl h0)]
          cases h
          rfl
        by_cases hd : isdigit c = true
        · rw [be_parse_bp_digit _ _ _ _ _ c hg hd hlt] at h
          rw [be_parse_bp_digit _ _ _ _ _ c hg' hd (by omega)]
          exact be_parse_string_frame einval pre m post cur r cur' h
        by_cases hi : c = 105
        · subst hi
          rw [be_parse_bp_i _ _ _ _ _ hg hlt] at h
          rw [be_parse_bp_i _ _ _ _ _ hg' (by omega)]
          exact be_parse_integer_frame einval pre m post cur r cur' h
        by_cases hl : c = 108
        · subst hl
          rw [be_parse_bp_l _ _ _ _ _ hg hlt] at h
          rw [be_parse_bp_l _ _ _ _ _ hg' (by omega)]
          unfold be_parse_list at h ⊢
          cases hloop : list_loop einval m m.length f (cur + 1) [] with
          | nofuel => rw [hloop] at h; exact Outcome.noConfusion h
          | fault => rw [hloop] at h; exact Outcome.noConfusion h
          | done l c1 =>
            rw [hloop] at h
            rw [Nat.add_assoc, ihl (cur + 1) [] l c1 hloop pre post f' bp_end (by omega) hend]
            simp only [] at h ⊢
            cases hg1 : m[c1]? with
            | none => rw [hg1] at h; exact Outcome.noConfusion h
            | some ch =>
              rw [hg1] at h
              rw [getElem?_frame pre m post c1 ch hg1]
              simp only [] at h ⊢
              by_cases hch : ch ≠ 101
              · rw [if_pos hch] at h ⊢
                cases h
                rfl
              · rw [if_neg hch] at h ⊢
                cases h
                simp [Nat.add_assoc]
        by_cases hdd : c = 100
        · subst hdd
          rw [be_parse_bp_d _ _ _ _ _ hg hlt] at h
          rw [be_parse_bp_d _ _ _ _ _ hg' (by omega)]
          unfold be_parse_dict at h ⊢
          cases hloop : dict_loop einval m m.length f (cur + 1) [] with
          | nofuel => rw [hloop] at h; exact Outcome.noConfusion h
          | fault => rw [hloop] at h; exact Outcome.noConfusion h
          | done l c1 =>
            rw [hloop] at h
            rw [Nat.add_assoc, ihd (cur + 1) [] l c1 hloop pre post f' bp_end (by omega) hend]
            simp only [] at h ⊢
            cases hg1 : m[c1]? with
            | none => rw [hg1] at h; exact Outcome.noConfusion h
            | some ch =>
              rw [hg1] at h
              rw [getElem?_frame pre m post c1 ch hg1]
              simp only [] at h ⊢
              by_cases hch : ch ≠ 101
              · rw [if_pos hch] at h ⊢
                cases h
                rfl
              · rw [if_neg hch] at h ⊢
                cases h
                simp [Nat.add_assoc]
        · rw [be_parse_bp_other _ _ _ _ _ c hg (by simpa using hd) hi hl hdd] at h
          rw [be_parse_bp_other _ _ _ _ _ c hg' (by simpa using hd) hi hl hdd]
          cases h
          rfl
    · intro cur acc r cur' h pre post fuel' bp_end hf hend
      obtain ⟨f', rfl⟩ : ∃ f', fuel' = f' + 1 := ⟨fuel' - 1, by omega⟩
      simp only [list_loop] at h ⊢
      cases hg : m[cur]? with
      | none => rw [hg] at h; exact Outcome.noConfusion h
      | some c =>
        have hlt := getElem?_lt m cur c hg
        rw [hg] at h
        rw [getElem?_frame pre m post cur c hg]
        simp only [] at h ⊢
        by_cases h0 : c ≠ 0
        · have hc1 : c ≠ 0 ∧ m.length ≠ cur := ⟨h0, by omega⟩
          have hc2 : c ≠ 0 ∧ bp_end ≠ pre.length + cur := ⟨h0, by omega⟩
          rw [if_pos hc1] at h
          rw [if_pos hc2]
          cases hb : be_parse_bp einval m m.length f cur with
          | nofuel => rw [hb] at h; exact Outcome.noConfusion h
          | fault => rw [hb] at h; exact Outcome.noConfusion h
          | done rb cb =>
            rw [hb] at h
            rw [ihb cur rb cb hb pre post f' bp_end (by omega) hend]
            cases rb with
            | none =>
              simp only [] at h ⊢
              cases h
              rfl
            | some ben =>
              simp only [] at h ⊢
              exact ihl cb (ben :: acc) r cur' h pre post f' bp_end (by omega) hend
        · have hc1 : ¬ (c ≠ 0 ∧ m.length ≠ cur) := fun hh => h0 hh.1
          have hc2 : ¬ (c ≠ 0 ∧ bp_end ≠ pre.length + cur) := fun hh => h0 hh.1
          rw [if_neg hc1] at h
          rw [if_neg hc2]
          cases h
          rfl
    · intro cur acc r cur' h pre post fuel' bp_end hf hend
      obtain ⟨f', rfl⟩ : ∃ f', fuel' = f' + 1 := ⟨fuel' - 1, by omega⟩
      simp only [dict_loop] at h ⊢
      cases hg : m[cur]? with
      | none => rw [hg] at h; exact Outcome.noConfusion h
      | some c =>
        have hlt := getElem?_lt m cur c hg
        rw [hg] at h
        rw [getElem?_frame pre m post cur c hg]
        simp only [] at h ⊢
        by_cases h0 : c ≠ 0
        · have hc1 : c ≠ 0 ∧ m.length ≠ cur := ⟨h0, by omega⟩
          have hc2 : c ≠ 0 ∧ bp_end ≠ pre.length + cur := ⟨h0, by omega⟩
          rw [if_pos hc1] at h
          rw [if_pos hc2]
          cases hs : parse_string einval m cur with
          | nofuel => rw [hs] at h; exact Outcome.noConfusion h
          | fault => rw [hs] at h; exact Outcome.noConfusion h
          | done rs cs =>
            rw [hs] at h
            rw [parse_string_frame einval pre m post cur rs cs hs]
            cases rs with
            | none =>
              simp only [] at h ⊢
              cases h
              rfl
            | some dst =>
              simp only [] at h ⊢
              cases hb : be_parse_bp einval m m.length f cs with
              | nofuel => rw [hb] at h; exact Outcome.noConfusion h
              | fault => rw [hb] at h; exact Outcome.noConfusion h
              | done rb cb =>
                rw [hb] at h
                rw [ihb cs rb cb hb pre post f' bp_end (by omega) hend]
                cases rb with
                | none =>
                  simp only [] at h ⊢
                  cases h
                  rfl
                | some ben =>
                  simp only [] at h ⊢
                  exact ihd cb (ben.set_dictkey dst :: acc) r cur' h pre post f' bp_end
                    (by omega) hend
        · have hc1 : ¬ (c ≠ 0 ∧ m.length ≠ cur) := fun hh => h0 hh.1
          have hc2 : ¬ (c ≠ 0 ∧ bp_end ≠ pre.length + cur) := fun hh => h0 hh.1
          rw [if_neg hc1] at h
          rw [if_neg hc2]
          cases h
          rfl

/-- The frame statement for `be_parse_bp`. -/
theorem be_parse_bp_frame (einval : Bool) (m : List Nat) (fuel cur : Nat) (r : Option bencode)
    (cur' : Nat) (h : be_parse_bp einval m m.length fuel cur = .done r cur')
    (pre post : List Nat) (fuel' bp_end : Nat) (hf : fuel ≤ fuel')
    (hend : pre.length + m.length ≤ bp_end) :
    be_parse_bp einval (pre ++ (m ++ post)) bp_end fuel' (pre.length + cur) =
      .done r (pre.length + cur') :=
  (frame_all einval m fuel).1 cur r cur' h pre post fuel' bp_end hf hend

/-- An input that decodes starts with a byte that is not NUL. -/
theorem decodes_to_head (einval : Bool) (e : List Nat) (v : bencode)
    (h : decodes_to einval e v) : ∃ c t, e = c :: t ∧ c ≠ 0 := by
  unfold decodes_to at h
  cases e with
  | nil =>
    rw [show 2 * ([] : List Nat).length + 2 = 1 + 1 from rfl,
      be_parse_bp_oob _ _ _ _ _ (by simp)] at h
    exact Outcome.noConfusion h
  | cons c t =>
    refine ⟨c, t, rfl, ?_⟩
    intro h0
    rw [show 2 * (c :: t).length + 2 = (2 * (c :: t).length + 1) + 1 from rfl,
      be_parse_bp_stop _ _ _ _ _ c (by simp) (Or.inl h0)] at h
    cases h

/-- An input that decodes by itself decodes the same inside a larger memory. -/
theorem decodes_to_frame (einval : Bool) (e : List Nat) (v : bencode)
    (h : decodes_to einval e v) (pre post : List Nat) (fuel bp_end : Nat)
    (hf : 2 * e.length + 2 ≤ fuel) (hend : pre.length + e.length ≤ bp_end) :
    be_parse_bp einval (pre ++ (e ++ post)) bp_end fuel pre.length =
      .done (some v) (pre.length + e.length) :=
  be_parse_bp_frame einval e _ 0 (some v) e.length h pre post fuel bp_end hf hend

/-! ## Trailing bytes -/

/-- C10.  Trailing bytes are ignored: when `be_nparse` on the input `s` (the
memory is `s`, the declared length its length) returns the node `v`, it
returns `v` on `s ++ t` with the declared length `|s| + |t|` for every `t`. -/
theorem C10_trailing_bytes_ignored (einval : Bool) (s t : List Nat) (v : bencode)
    (h : be_nparse einval s s.length = .ret (some v)) :
    be_nparse einval (s ++ t) (s.length + t.length) = .ret (some v) := by
  cases s with
  | nil => simp [be_nparse, strlen] at h
  | cons c s' =>
    rw [be_nparse_pos _ _ _ (by simp)] at h
    rw [be_nparse_pos _ _ _ (by simp)]
    unfold be_run at h ⊢
    cases hb : be_parse_bp einval (c :: s') (c :: s').length (2 * (c :: s').length + 2) 0 with
    | nofuel => rw [hb] at h; cases h
    | fault => rw [hb] at h; cases h
    | done r cur =>
      rw [hb] at h
      simp only [Decoded.ret.injEq] at h
      subst h
      have := be_parse_bp_frame einval (c :: s') _ 0 (some v) cur hb [] t
        (2 * ((c :: s').length + t.length) + 2) ((c :: s').length + t.length)
        (by omega) (by simp)
      simp only [List.nil_append, List.length_nil, Nat.zero_add] at this
      rw [this]

/-- C10, at `i42e` followed by `xyz`. -/
theorem C10_trailing_bytes_ignored_witness :
    be_nparse false (bytes "i42e") 4 = .ret (some (.BET_INTEGER none 42)) ∧
    be_nparse false (bytes "i42exyz") 7 = .ret (some (.BET_INTEGER none 42)) :=
  ⟨rfl, C10_trailing_bytes_ignored false (bytes "i42e") (bytes "xyz") (.BET_INTEGER none 42) rfl⟩

/-! ## Lists -/

/-- The list loop on the inputs of `es` and the closing `e`: every element is
put at the head of the queue, so the queue ends up in reverse order, and the
cursor stops at the `e`. -/
theorem list_loop_elements (einval : Bool) :
    ∀ (es : List (List Nat × bencode)) (pre rest : List Nat) (acc : List bencode)
      (fuel bp_end : Nat),
      (∀ p ∈ es, decodes_to einval p.1 p.2) →
      2 * (list_body es).length + 3 ≤ fuel →
      pre.length + (list_body es).length < bp_end →
      list_loop einval (pre ++ (list_body es ++ 101 :: rest)) bp_end fuel pre.length acc =
        .done ((es.map Prod.snd).reverse ++ acc) (pre.length + (list_body es).length) := by
  intro es
  induction es with
  | nil =>
    intro pre rest acc fuel bp_end _ hf hend
    obtain ⟨f, rfl⟩ : ∃ f, fuel = f + 1 + 1 := ⟨fuel - 2, by omega⟩
    simp only [list_body, List.length_nil, Nat.add_zero, List.nil_append] at hend ⊢
    have hg : (pre ++ 101 :: rest)[pre.length]? = some 101 :=
      getElem?_append_cons _ _ _ _ rfl
    have hc : (101 : Nat) ≠ 0 ∧ bp_end ≠ pre.length := ⟨by decide, by omega⟩
    simp only [list_loop, hg]
    rw [if_pos hc,
      be_parse_bp_other _ _ _ _ _ 101 hg (by decide) (by decide) (by decide) (by decide)]
    rfl
  | cons p es ih =>
    obtain ⟨e, v⟩ := p
    intro pre rest acc fuel bp_end hall hf hend
    have hev : decodes_to einval e v := hall (e, v) (List.mem_cons_self _ _)
    obtain ⟨c, t, hct, hc0⟩ := decodes_to_head einval e v hev
    have hepos : 1 ≤ e.length := by rw [hct]; simp
    obtain ⟨f, rfl⟩ : ∃ f, fuel = f + 1 := ⟨fuel - 1, by omega⟩
    simp only [list_body, List.length_append] at hf hend ⊢
    have hmem : pre ++ (e ++ list_body es ++ 101 :: rest) =
        pre ++ (e ++ (list_body es ++ 101 :: rest)) := by simp
    have hg : (pre ++ (e ++ (list_body es ++ 101 :: rest)))[pre.length]? = some c := by
      have := getElem?_frame pre e (list_body es ++ 101 :: rest) 0 c (by rw [hct]; simp)
      simpa using this
    have hcond : c ≠ 0 ∧ bp_end ≠ pre.length := ⟨hc0, by omega⟩
    have hb := decodes_to_frame einval e v hev pre (list_body es ++ 101 :: rest) f bp_end
      (by omega) (by omega)
    have hrec := ih (pre ++ e) rest (v :: acc) f bp_end
      (fun q hq => hall q (List.mem_cons_of_mem _ hq)) (by omega)
      (by rw [List.length_append]; omega)
    rw [List.length_append, List.append_assoc] at hrec
    rw [hmem]
    simp only [list_loop, hg]
    rw [if_pos hcond, hb]
    simp only []
    rw [hrec]
    simp [Nat.add_assoc]

/-- The statement for `be_nparse` on a whole list. -/
theorem be_nparse_list (einval : Bool) (es : List (List Nat × bencode)) (rest : List Nat)
    (h : ∀ p ∈ es, decodes_to einval p.1 p.2) :
    be_nparse einval (108 :: (list_body es ++ 101 :: rest)) ((list_body es).length + 2) =
      .ret (some (.BET_LIST none (es.map Prod.snd).reverse)) := by
  rw [be_nparse_pos _ _ _ (by omega)]
  unfold be_run
  have hfuel : 2 * ((list_body es).length + 2) + 2 = (2 * (list_body es).length + 5) + 1 := by
    omega
  rw [hfuel, be_parse_bp_l _ _ _ _ _ (by simp) (by omega)]
  have hl := list_loop_elements einval es [108] rest [] (2 * (list_body es).length + 5)
    ((list_body es).length + 2) h (by omega) (by simp; omega)
  simp only [List.singleton_append, List.length_singleton, List.append_nil] at hl
  have hg : (108 :: (list_body es ++ 101 :: rest))[1 + (list_body es).length]? = some 101 := by
    have : 108 :: (list_body es ++ 101 :: rest) = (108 :: list_body es) ++ 101 :: rest := by simp
    rw [this]
    exact getElem?_append_cons _ _ _ _ (by simp; omega)
  unfold be_parse_list
  rw [show (0 : Nat) + 1 = 1 from rfl, hl]
  simp only [hg]
  simp

/-- C3, as the claim states it, fails at `l4:spam4:eggse`: the two elements
decode to `spam` and `eggs`, and the list does not have them in that order. -/
theorem C3_list_order_counterexample :
    decodes_to false (bytes "4:spam") (.BET_STRING none (some (bytes "spam" ++ [0]))) ∧
    decodes_to false (bytes "4:eggs") (.BET_STRING none (some (bytes "eggs" ++ [0]))) ∧
    be_nparse false (bytes "l4:spam4:eggse") 14 ≠
      .ret (some (.BET_LIST none [.BET_STRING none (some (bytes "spam" ++ [0])),
        .BET_STRING none (some (bytes "eggs" ++ [0]))])) := by
  refine ⟨rfl, rfl, ?_⟩
  rw [show be_nparse false (bytes "l4:spam4:eggse") 14 =
    .ret (some (.BET_LIST none [.BET_STRING none (some (bytes "eggs" ++ [0])),
      .BET_STRING none (some (bytes "spam" ++ [0]))])) from rfl]
  simp [bytes]

/-- C3, amended.  For inputs `e1 .. ek` that decode by themselves to
`v1 .. vk`, consuming all their bytes, the input `l e1 .. ek e` decodes to the
list node whose queue holds `vk .. v1`: the children in reverse encounter
order, because each child is inserted at the head. -/
theorem C3_list_children_reversed (einval : Bool) (es : List (List Nat × bencode))
    (rest : List Nat) (h : ∀ p ∈ es, decodes_to einval p.1 p.2) :
    be_nparse einval (108 :: (list_body es ++ 101 :: rest)) ((list_body es).length + 2) =
      .ret (some (.BET_LIST none (es.map Prod.snd).reverse)) :=
  be_nparse_list einval es rest h

/-- C3, amended, at `l4:spam4:eggse`: `eggs` is first. -/
theorem C3_list_children_reversed_witness :
    be_nparse false (bytes "l4:spam4:eggse") 14 =
      .ret (some (.BET_LIST none [.BET_STRING none (some (bytes "eggs" ++ [0])),
        .BET_STRING none (some (bytes "spam" ++ [0]))])) :=
  C3_list_children_reversed false
    [(bytes "4:spam", .BET_STRING none (some (bytes "spam" ++ [0]))),
     (bytes "4:eggs", .BET_STRING none (some (bytes "eggs" ++ [0])))] []
    (by
      intro p hp
      simp only [List.mem_cons, List.mem_singleton, List.not_mem_nil, or_false] at hp
      rcases hp with rfl | rfl <;> rfl)

/-! ## Dictionaries -/

/-- At a byte `e` the scan of `strtoll` finds no digits. -/
theorem strtoll_at_e (einval : Bool) (pre rest : List Nat) :
    strtoll einval (pre ++ 101 :: rest) pre.length = some ⟨0, pre.length, einval⟩ := by
  have hdrop : (pre ++ 101 :: rest).drop pre.length = 101 :: rest := by simp
  have hsp : isspace 101 = false := by decide
  have hd : isdigit 101 = false := by decide
  simp [strtoll, hdrop, count_space, hsp, List.takeWhile_cons, hd]

/-- With a C library that reports the missing digits, `parse_string` fails at a
byte `e` and leaves the cursor there. -/
theorem parse_string_at_e (pre rest : List Nat) :
    parse_string true (pre ++ 101 :: rest) pre.length = .done none pre.length := by
  simp [parse_string, strtoll_at_e]

theorem decimal_head (n : Nat) :
    ∃ c t, decimal (n : Int) = c :: t ∧ isdigit c = true ∧ c ≠ 0 := by
  obtain ⟨h2, h3, _⟩ := decimal_natCast n
  cases hd : decimal (n : Int) with
  | nil => exact absurd hd h2
  | cons a t =>
    have ha : isdigit a = true := h3 a (by rw [hd]; exact List.mem_cons_self _ _)
    refine ⟨a, t, rfl, ha, ?_⟩
    intro h0
    subst h0
    simp [isdigit] at ha

/-- The dictionary loop on the entries `es` and the closing `e`, with a C
library that reports the missing digits: every entry is put at the head of the
queue, and the cursor stops at the `e`. -/
theorem dict_loop_entries :
    ∀ (es : List (List Nat × List Nat × bencode)) (pre rest : List Nat) (acc : List bencode)
      (fuel bp_end : Nat),
      (∀ p ∈ es, p.1 ≠ [] ∧ p.1.length < 2 ^ 63 ∧ decodes_to true p.2.1 p.2.2) →
      2 * (dict_body es).length + 3 ≤ fuel →
      pre.length + (dict_body es).length < bp_end →
      dict_loop true (pre ++ (dict_body es ++ 101 :: rest)) bp_end fuel pre.length acc =
        .done ((dict_children es).reverse ++ acc) (pre.length + (dict_body es).length) := by
  intro es
  induction es with
  | nil =>
    intro pre rest acc fuel bp_end _ hf hend
    obtain ⟨f, rfl⟩ : ∃ f, fuel = f + 1 := ⟨fuel - 1, by omega⟩
    simp only [dict_body, List.length_nil, Nat.add_zero, List.nil_append] at hend ⊢
    have hg : (pre ++ 101 :: rest)[pre.length]? = some 101 :=
      getElem?_append_cons _ _ _ _ rfl
    have hc : (101 : Nat) ≠ 0 ∧ bp_end ≠ pre.length := ⟨by decide, by omega⟩
    simp only [dict_loop, hg]
    rw [if_pos hc, parse_string_at_e]
    rfl
  | cons p es ih =>
    obtain ⟨b, e, v⟩ := p
    intro pre rest acc fuel bp_end hall hf hend
    obtain ⟨hb0, hbmax, hev⟩ := hall (b, e, v) (List.mem_cons_self _ _)
    simp only [] at hb0 hbmax hev
    have hbpos : 0 < b.length := List.length_pos.2 hb0
    obtain ⟨h2, h3, h4⟩ := decimal_natCast b.length
    obtain ⟨c, t, hct, hcd, hc0⟩ := decimal_head b.length
    obtain ⟨f, rfl⟩ : ∃ f, fuel = f + 1 := ⟨fuel - 1, by omega⟩
    simp only [dict_body, key_text, List.length_append, List.length_cons] at hf hend ⊢
    have hmem : pre ++ (decimal (b.length : Int) ++ 58 :: b ++ (e ++ dict_body es) ++ 101 :: rest) =
        pre ++ (decimal (b.length : Int) ++
          58 :: (b ++ (e ++ (dict_body es ++ 101 :: rest)))) := by simp
    have hmem2 : pre ++ (decimal (b.length : Int) ++
          58 :: (b ++ (e ++ (dict_body es ++ 101 :: rest)))) =
        (pre ++ (decimal (b.length : Int) ++ 58 :: b)) ++ (e ++ (dict_body es ++ 101 :: rest)) := by
      simp
    have hg : (pre ++ (decimal (b.length : Int) ++
          58 :: (b ++ (e ++ (dict_body es ++ 101 :: rest)))))[pre.length]? = some c := by
      rw [hct]
      exact getElem?_append_cons _ _ _ _ rfl
    have hcond : c ≠ 0 ∧ bp_end ≠ pre.length := ⟨hc0, by omega⟩
    have hps := parse_string_digits true pre (decimal (b.length : Int)) 58 b
      (e ++ (dict_body es ++ 101 :: rest)) h2 h3 (by decide) (by omega) (by omega) (by omega)
    have hbp := decodes_to_frame true e v hev (pre ++ (decimal (b.length : Int) ++ 58 :: b))
      (dict_body es ++ 101 :: rest) f bp_end (by omega)
      (by simp only [List.length_append, List.length_cons]; omega)
    have hlen1 : (pre ++ (decimal (b.length : Int) ++ 58 :: b)).length =
        pre.length + (decimal (b.length : Int)).length + 1 + b.length := by
      simp only [List.length_append, List.length_cons]
      omega
    have hrec := ih ((pre ++ (decimal (b.length : Int) ++ 58 :: b)) ++ e) rest
      (v.set_dictkey (some (b ++ [0])) :: acc) f bp_end
      (fun q hq => hall q (List.mem_cons_of_mem _ hq)) (by omega)
      (by rw [List.length_append, hlen1]; omega)
    rw [List.length_append, List.append_assoc, ← hmem2] at hrec
    rw [← hmem2, hlen1] at hbp
    rw [hmem]
    simp only [dict_loop, hg]
    rw [if_pos hcond, hps]
    simp only []
    rw [hbp]
    simp only []
    rw [hlen1] at hrec
    rw [hrec]
    simp [dict_children, Nat.add_assoc]
    omega

/-- The statement for `be_nparse` on a whole dictionary. -/
theorem be_nparse_dict (es : List (List Nat × List Nat × bencode)) (rest : List Nat)
    (h : ∀ p ∈ es, p.1 ≠ [] ∧ p.1.length < 2 ^ 63 ∧ decodes_to true p.2.1 p.2.2) :
    be_nparse true (100 :: (dict_body es ++ 101 :: rest)) ((dict_body es).length + 2) =
      .ret (some (.BET_DICT none (dict_children es).reverse)) := by
  rw [be_nparse_pos _ _ _ (by omega)]
  unfold be_run
  have hfuel : 2 * ((dict_body es).length + 2) + 2 = (2 * (dict_body es).length + 5) + 1 := by
    omega
  rw [hfuel, be_parse_bp_d _ _ _ _ _ (by simp) (by omega)]
  have hl := dict_loop_entries es [100] rest [] (2 * (dict_body es).length + 5)
    ((dict_body es).length + 2) h (by omega) (by simp; omega)
  simp only [List.singleton_append, List.length_singleton, List.append_nil] at hl
  have hg : (100 :: (dict_body es ++ 101 :: rest))[1 + (dict_body es).length]? = some 101 := by
    have : 100 :: (dict_body es ++ 101 :: rest) = (100 :: dict_body es) ++ 101 :: rest := by simp
    rw [this]
    exact getElem?_append_cons _ _ _ _ (by simp; omega)
  unfold be_parse_dict
  rw [show (0 : Nat) + 1 = 1 from rfl, hl]
  simp only [hg]
  simp

/-- C4, as the claim states it, fails at `d3:cow3:moo4:spam4:eggse`.  With a C
library whose `strtoll` sets `errno` when it finds no digits, the values
decode to `moo` and `eggs` and the dictionary does not have (cow, moo) before
(spam, eggs).  With a C library that leaves `errno` alone the decoder takes the
closing `e` for a key of length 0 and reads the byte after the input. -/
theorem C4_dict_order_counterexample :
    decodes_to true (bytes "3:moo") (.BET_STRING none (some (bytes "moo" ++ [0]))) ∧
    decodes_to true (bytes "4:eggs") (.BET_STRING none (some (bytes "eggs" ++ [0]))) ∧
    be_nparse true (bytes "d3:cow3:moo4:spam4:eggse") 24 ≠
      .ret (some (.BET_DICT none
        [.BET_STRING (some (bytes "cow" ++ [0])) (some (bytes "moo" ++ [0])),
         .BET_STRING (some (bytes "spam" ++ [0])) (some (bytes "eggs" ++ [0]))])) ∧
    be_nparse false (bytes "d3:cow3:moo4:spam4:eggse") 24 = .fault := by
  refine ⟨rfl, rfl, ?_, rfl⟩
  rw [show be_nparse true (bytes "d3:cow3:moo4:spam4:eggse") 24 =
    .ret (some (.BET_DICT none
      [.BET_STRING (some (bytes "spam" ++ [0])) (some (bytes "eggs" ++ [0])),
       .BET_STRING (some (bytes "cow" ++ [0])) (some (bytes "moo" ++ [0]))])) from rfl]
  simp [bytes]

/-- C4, amended.  With a C library whose `strtoll` sets `errno` when it finds
no digits: for entries whose keys are encoded non-empty byte strings and whose
values decode by themselves, the input `d key1 value1 .. keyk valuek e` decodes
to the dictionary node whose queue holds the entries in reverse encounter
order, each value carrying its key. -/
theorem C4_dict_entries_reversed (es : List (List Nat × List Nat × bencode)) (rest : List Nat)
    (h : ∀ p ∈ es, p.1 ≠ [] ∧ p.1.length < 2 ^ 63 ∧ decodes_to true p.2.1 p.2.2) :
    be_nparse true (100 :: (dict_body es ++ 101 :: rest)) ((dict_body es).length + 2) =
      .ret (some (.BET_DICT none (dict_children es).reverse)) :=
  be_nparse_dict es rest h

/-- C4, amended, at `d3:cow3:moo4:spam4:eggse`: (spam, eggs) is first. -/
theorem C4_dict_entries_reversed_witness :
    be_nparse true (bytes "d3:cow3:moo4:spam4:eggse") 24 =
      .ret (some (.BET_DICT none
        [.BET_STRING (some (bytes "spam" ++ [0])) (some (bytes "eggs" ++ [0])),
         .BET_STRING (some (bytes "cow" ++ [0])) (some (bytes "moo" ++ [0]))])) :=
  C4_dict_entries_reversed
    [(bytes "cow", bytes "3:moo", .BET_STRING none (some (bytes "moo" ++ [0]))),
     (bytes "spam", bytes "4:eggs", .BET_STRING none (some (bytes "eggs" ++ [0])))] []
    (by
      intro p hp
      simp only [List.mem_cons, List.mem_singleton, List.not_mem_nil, or_false] at hp
      rcases hp with rfl | rfl
      · exact ⟨by decide, by decide, rfl⟩
      · exact ⟨by decide, by decide, rfl⟩)

/-! ## Reads after the declared end -/

/-- C5: the code at the failing input.  The input is `5:abc` (declared length
5); the memory goes on with `de`.  `parse_string` copies five bytes from a
remainder of three and the decoder returns the string `abcde`.  When the
memory stops where the input does, the copy reads outside it. -/
theorem C5_truncated_string_not_rejected :
    be_nparse false (bytes "5:abcde") 5 =
      .ret (some (.BET_STRING none (some (bytes "abcde" ++ [0])))) ∧
    be_nparse true (bytes "5:abcde") 5 =
      .ret (some (.BET_STRING none (some (bytes "abcde" ++ [0])))) ∧
    be_nparse false (bytes "5:abc") 5 = .fault ∧
    be_nparse true (bytes "5:abc") 5 = .fault :=
  ⟨rfl, rfl, rfl, rfl⟩

/-- C6: the code at the failing input.  Two memories with the same first five
bytes `5:abc`, decoded with the declared length 5, give different strings; two
memories with the same first byte `l`, decoded with the declared length 1, give
a list and a failure. -/
theorem C6_outcome_depends_on_later_bytes :
    (bytes "5:abcde").take 5 = (bytes "5:abcxy").take 5 ∧
    be_nparse false (bytes "5:abcde") 5 ≠ be_nparse false (bytes "5:abcxy") 5 ∧
    (bytes "le").take 1 = (bytes "lx").take 1 ∧
    be_nparse false (bytes "le") 1 = .ret (some (.BET_LIST none [])) ∧
    be_nparse false (bytes "lx") 1 = .ret none := by
  refine ⟨rfl, ?_, rfl, rfl, rfl⟩
  rw [show be_nparse false (bytes "5:abcde") 5 =
      .ret (some (.BET_STRING none (some (bytes "abcde" ++ [0])))) from rfl,
    show be_nparse false (bytes "5:abcxy") 5 =
      .ret (some (.BET_STRING none (some (bytes "abcxy" ++ [0])))) from rfl]
  simp [bytes]

/-! ## Integers that are not canonical -/

/-- The statement of `be_parse_integer_digits` for `be_nparse`. -/
theorem be_nparse_integer_digits (einval : Bool) (neg : Bool) (ds rest : List Nat)
    (hne : ds ≠ []) (hds : ∀ d ∈ ds, isdigit d = true)
    (hlo : LLONG_MIN ≤ (if neg then -(digits_value ds : Int) else (digits_value ds : Int)))
    (hhi : (if neg then -(digits_value ds : Int) else (digits_value ds : Int)) ≤ LLONG_MAX) :
    be_nparse einval (105 :: ((if neg then [45] else []) ++ ds ++ 101 :: rest))
        ((if neg then 1 else 0) + ds.length + 2) =
      .ret (some (.BET_INTEGER none
        (if neg then -(digits_value ds : Int) else (digits_value ds : Int)))) := by
  rw [be_nparse_pos _ _ _ (by omega)]
  unfold be_run
  have hfuel : 2 * ((if neg then 1 else 0) + ds.length + 2) + 2 =
      (2 * ((if neg then 1 else 0) + ds.length + 2) + 1) + 1 := by omega
  rw [hfuel, be_parse_bp_i _ _ _ _ _ (by simp) (by omega)]
  have := be_parse_integer_digits einval neg [] ds rest hne hds hlo hhi
  simp only [List.nil_append, List.length_nil] at this
  rw [this]

/-- C7, as the claim states it, fails at `i03e` and at `i-0e`: neither is a
decode failure. -/
theorem C7_noncanonical_counterexample :
    be_nparse false (bytes "i03e") 4 ≠ .ret none ∧
    be_nparse true (bytes "i03e") 4 ≠ .ret none ∧
    be_nparse false (bytes "i-0e") 4 ≠ .ret none ∧
    be_nparse true (bytes "i-0e") 4 ≠ .ret none := by
  rw [show be_nparse false (bytes "i03e") 4 = .ret (some (.BET_INTEGER none 3)) from rfl,
    show be_nparse true (bytes "i03e") 4 = .ret (some (.BET_INTEGER none 3)) from rfl,
    show be_nparse false (bytes "i-0e") 4 = .ret (some (.BET_INTEGER none 0)) from rfl,
    show be_nparse true (bytes "i-0e") 4 = .ret (some (.BET_INTEGER none 0)) from rfl]
  simp

/-- C7, amended.  An integer token is decoded whatever its digit run is: with
leading zeros, and with a minus sign before a zero, the input `i`, optional
minus sign, digits, `e` decodes to the integer node with the value of the
digits, when that value is within 64 bits. -/
theorem C7_noncanonical_integer_accepted (einval : Bool) (neg : Bool) (ds rest : List Nat)
    (hne : ds ≠ []) (hds : ∀ d ∈ ds, isdigit d = true)
    (hlo : LLONG_MIN ≤ (if neg then -(digits_value ds : Int) else (digits_value ds : Int)))
    (hhi : (if neg then -(digits_value ds : Int) else (digits_value ds : Int)) ≤ LLONG_MAX) :
    be_nparse einval (105 :: ((if neg then [45] else []) ++ ds ++ 101 :: rest))
        ((if neg then 1 else 0) + ds.length + 2) =
      .ret (some (.BET_INTEGER none
        (if neg then -(digits_value ds : Int) else (digits_value ds : Int)))) :=
  be_nparse_integer_digits einval neg ds rest hne hds hlo hhi

/-- C7, amended, at `i03e` (gives 3) and at `i-0e` (gives 0). -/
theorem C7_noncanonical_integer_accepted_witness :
    be_nparse false (bytes "i03e") 4 = .ret (some (.BET_INTEGER none 3)) ∧
    be_nparse false (bytes "i-0e") 4 = .ret (some (.BET_INTEGER none 0)) :=
  ⟨C7_noncanonical_integer_accepted false false [48, 51] [] (by decide) (by decide)
      (by decide) (by decide),
   C7_noncanonical_integer_accepted false true [48] [] (by decide) (by decide)
      (by decide) (by decide)⟩

/-! ## The empty string -/

/-- C8, as the claim states it, fails: the string node that `0:` decodes to
has no buffer at all. -/
theorem C8_empty_string_counterexample :
    ¬ ∃ buf : List Nat,
      be_nparse false (bytes "0:") 2 = .ret (some (.BET_STRING none (some buf))) := by
  rw [show be_nparse false (bytes "0:") 2 = .ret (some (.BET_STRING none none)) from rfl]
  simp

/-- C8, amended.  The input `0:` decodes to a string node whose string pointer
is `NULL`: for the length 0 no buffer is allocated. -/
theorem C8_empty_string_is_null (einval : Bool) (rest : List Nat) :
    be_nparse einval (48 :: 58 :: rest) 2 = .ret (some (.BET_STRING none none)) := by
  rw [be_nparse_pos _ _ _ (by omega)]
  unfold be_run
  rw [show 2 * 2 + 2 = 5 + 1 from rfl,
    be_parse_bp_digit _ _ _ _ _ 48 (by simp) (by decide) (by omega)]
  have hs := strtoll_digits einval [] [48] 58 rest (by simp) (by decide) (by decide)
  have hcl : clamp false (digits_value [48]) (([] : List Nat).length + [48].length) =
      ⟨0, 1, false⟩ := rfl
  rw [hcl] at hs
  simp only [List.nil_append, List.singleton_append, List.length_nil] at hs
  simp [be_parse_string, parse_string, hs]

/-! ## Dispatch failures -/

/-- C9.  `be_nparse` returns a decode failure for the empty input, which with
the declared length 0 is a memory that starts with the terminating NUL, and
for every non-empty input whose first byte is not a digit and not `i`, `l` or
`d`. -/
theorem C9_dispatch_failure (einval : Bool) :
    (∀ rest : List Nat, be_nparse einval (0 :: rest) 0 = .ret none) ∧
    (∀ (c : Nat) (t rest : List Nat), isdigit c = false → c ≠ 105 → c ≠ 108 → c ≠ 100 →
      be_nparse einval (c :: (t ++ rest)) (t.length + 1) = .ret none) := by
  constructor
  · intro rest
    have hs : strlen (0 :: rest) = some 0 := by simp [strlen]
    simp only [be_nparse, if_true, hs, be_run]
    rw [show 2 * 0 + 2 = 1 + 1 from rfl,
      be_parse_bp_stop _ _ _ _ _ 0 (by simp) (Or.inl rfl)]
  · intro c t rest hd hi hl hdd
    rw [be_nparse_pos _ _ _ (by omega)]
    unfold be_run
    rw [show 2 * (t.length + 1) + 2 = (2 * t.length + 3) + 1 by omega,
      be_parse_bp_other _ _ _ _ _ c (by simp) hd hi hl hdd]

/-- C9, at the empty string and at the input `x`. -/
theorem C9_dispatch_failure_witness :
    be_nparse false [0] 0 = .ret none ∧ be_nparse false (bytes "x") 1 = .ret none :=
  ⟨(C9_dispatch_failure false).1 [],
   (C9_dispatch_failure false).2 120 [] [] (by decide) (by decide) (by decide) (by decide)⟩

/-! ## The fuel is enough -/

theorem strtoll_endptr_ge (einval : Bool) (mem : List Nat) (nptr : Nat) (r : strtoll_ret)
    (h : strtoll einval mem nptr = some r) : nptr ≤ r.endptr := by
  simp only [strtoll] at h
  split at h
  · exact Option.noConfusion h
  · split at h
    · exact Option.noConfusion h
    · split_ifs at h
      all_goals
        simp only [Option.some.injEq] at h
        subst h
        first
          | exact Nat.le_refl _
          | (rw [clamp_endptr]; omega)

theorem parse_string_progress (einval : Bool) (mem : List Nat) (cur : Nat)
    (r : Option (Option (List Nat))) (cur' : Nat)
    (h : parse_string einval mem cur = .done r cur') :
    cur ≤ cur' ∧ (r.isSome = true → cur < cur') := by
  unfold parse_string at h
  cases h0 : strtoll einval mem cur with
  | none => rw [h0] at h; exact Outcome.noConfusion h
  | some r0 =>
    have hge := strtoll_endptr_ge einval mem cur r0 h0
    rw [h0] at h
    simp only [] at h
    split_ifs at h
    · cases h
      simp
    · cases h
      exact ⟨by omega, fun _ => by omega⟩
    · cases h
      exact ⟨by omega, fun _ => by omega⟩

theorem be_parse_string_progress (einval : Bool) (mem : List Nat) (cur : Nat)
    (r : Option bencode) (cur' : Nat)
    (h : be_parse_string einval mem cur = .done r cur') :
    cur ≤ cur' ∧ (r.isSome = true → cur < cur') := by
  unfold be_parse_string at h
  cases h0 : parse_string einval mem cur with
  | nofuel => rw [h0] at h; exact Outcome.noConfusion h
  | fault => rw [h0] at h; exact Outcome.noConfusion h
  | done r0 c0 =>
    have hp := parse_string_progress einval mem cur r0 c0 h0
    rw [h0] at h
    cases r0 with
    | none => cases h; exact ⟨hp.1, by simp⟩
    | some dst => cases h; exact ⟨hp.1, fun _ => hp.2 rfl⟩

theorem be_parse_integer_progress (einval : Bool) (mem : List Nat) (cur : Nat)
    (r : Option bencode) (cur' : Nat)
    (h : be_parse_integer einval mem cur = .done r cur') :
    cur ≤ cur' ∧ (r.isSome = true → cur < cur') := by
  unfold be_parse_integer at h
  simp only [] at h
  cases h0 : strtoll einval mem (cur + 1) with
  | none => rw [h0] at h; exact Outcome.noConfusion h
  | some r0 =>
    have hge := strtoll_endptr_ge einval mem (cur + 1) r0 h0
    rw [h0] at h
    simp only [] at h
    split_ifs at h
    · cases h
      exact ⟨by omega, fun _ => by omega⟩
    · split at h
      · exact Outcome.noConfusion h
      · split_ifs at h
        · cases h
          exact ⟨by omega, fun _ => by omega⟩
        · cases h
          exact ⟨by omega, fun _ => by omega⟩

/-- A call never moves the cursor back, and a call that returns a node started
before `bp_end` and moved the cursor forward. -/
theorem progress_all (einval : Bool) (mem : List Nat) (bp_end : Nat) : ∀ fuel : Nat,
    (∀ cur r cur', be_parse_bp einval mem bp_end fuel cur = .done r cur' →
      cur ≤ cur' ∧ (r.isSome = true → cur < cur' ∧ cur < bp_end)) ∧
    (∀ cur acc l cur', list_loop einval mem bp_end fuel cur acc = .done l cur' → cur ≤ cur') ∧
    (∀ cur acc l cur', dict_loop einval mem bp_end fuel cur acc = .done l cur' → cur ≤ cur') := by
  intro fuel
  induction fuel with
  | zero =>
    refine ⟨?_, ?_, ?_⟩
    · intro cur r cur' h
      simp [be_parse_bp] at h
    · intro cur acc r cur' h
      simp [list_loop] at h
    · intro cur acc r cur' h
      simp [dict_loop] at h
  | succ f ih =>
    obtain ⟨ihb, ihl, ihd⟩ := ih
    refine ⟨?_, ?_, ?_⟩
    · intro cur r cur' h
      cases hg : mem[cur]? with
      | none => rw [be_parse_bp_oob _ _ _ _ _ hg] at h; exact Outcome.noConfusion h
      | some c =>
        by_cases hstop : c = 0 ∨ bp_end ≤ cur
        · rw [be_parse_bp_stop _ _ _ _ _ c hg hstop] at h
          cases h
          simp
        have hlt : cur < bp_end := by
          by_contra hcon
          exact hstop (Or.inr (by omega))
        by_cases hd : isdigit c = true
        · rw [be_parse_bp_digit _ _ _ _ _ c hg hd hlt] at h
          have := be_parse_string_progress einval mem cur r cur' h
          exact ⟨this.1, fun hr => ⟨this.2 hr, hlt⟩⟩
        by_cases hi : c = 105
        · subst hi
          rw [be_parse_bp_i _ _ _ _ _ hg hlt] at h
          have := be_parse_integer_progress einval mem cur r cur' h
          exact ⟨this.1, fun hr => ⟨this.2 hr, hlt⟩⟩
        by_cases hl : c = 108
        · subst hl
          rw [be_parse_bp_l _ _ _ _ _ hg hlt] at h
          unfold be_parse_list at h
          cases hloop : list_loop einval mem bp_end f (cur + 1) [] with
          | nofuel => rw [hloop] at h; exact Outcome.noConfusion h
          | fault => rw [hloop] at h; exact Outcome.noConfusion h
          | done l c1 =>
            have hle := ihl (cur + 1) [] l c1 hloop
            rw [hloop] at h
            simp only [] at h
            split at h
            · exact Outcome.noConfusion h
            · split_ifs at h
              · cases h
                exact ⟨by omega, by simp⟩
              · cases h
                exact ⟨by omega, fun _ => ⟨by omega, hlt⟩⟩
        by_cases hdd : c = 100
        · subst hdd
          rw [be_parse_bp_d _ _ _ _ _ hg hlt] at h
          unfold be_parse_dict at h
          cases hloop : dict_loop einval mem bp_end f (cur + 1) [] with
          | nofuel => rw [hloop] at h; exact Outcome.noConfusion h
          | fault => rw [hloop] at h; exact Outcome.noConfusion h
          | done l c1 =>
            have hle := ihd (cur + 1) [] l c1 hloop
            rw [hloop] at h
            simp only [] at h
            split at h
            · exact Outcome.noConfusion h
            · split_ifs at h
              · cases h
                exact ⟨by omega, by simp⟩
              · cases h
                exact ⟨by omega, fun _ => ⟨by omega, hlt⟩⟩
        · rw [be_parse_bp_other _ _ _ _ _ c hg (by simpa using hd) hi hl hdd] at h
          cases h
          simp
    · intro cur acc l cur' h
      simp only [list_loop] at h
      split at h
      · exact Outcome.noConfusion h
      · split_ifs at h
        · cases hb : be_parse_bp einval mem bp_end f cur with
          | nofuel => rw [hb] at h; exact Outcome.noConfusion h
          | fault => rw [hb] at h; exact Outcome.noConfusion h
          | done rb cb =>
            have hp := ihb cur rb cb hb
            rw [hb] at h
            cases rb with
            | none =>
              simp only [] at h
              cases h
              exact hp.1
            | some ben =>
              simp only [] at h
              have := ihl cb (ben :: acc) l cur' h
              omega
        · cases h
          exact Nat.le_refl _
    · intro cur acc l cur' h
      simp only [dict_loop] at h
      split at h
      · exact Outcome.noConfusion h
      · split_ifs at h
        · cases hs : parse_string einval mem cur with
          | nofuel => rw [hs] at h; exact Outcome.noConfusion h
          | fault => rw [hs] at h; exact Outcome.noConfusion h
          | done rs cs =>
            have hps := parse_string_progress einval mem cur rs cs hs
            rw [hs] at h
            cases rs with
            | none =>
              simp only [] at h
              cases h
              exact hps.1
            | some dst =>
              simp only [] at h
              cases hb : be_parse_bp einval mem bp_end f cs with
              | nofuel => rw [hb] at h; exact Outcome.noConfusion h
              | fault => rw [hb] at h; exact Outcome.noConfusion h
              | done rb cb =>
                have hp := ihb cs rb cb hb
                rw [hb] at h
                cases rb with
                | none =>
                  simp only [] at h
                  cases h
                  omega
                | some ben =>
                  simp only [] at h
                  have := ihd cb (ben.set_dictkey dst :: acc) l cur' h
                  omega
        · cases h
          exact Nat.le_refl _

theorem parse_string_ne_nofuel (einval : Bool) (mem : List Nat) (cur : Nat) :
    parse_string einval mem cur ≠ .nofuel := by
  unfold parse_string
  cases strtoll einval mem cur with
  | none => exact fun h => Outcome.noConfusion h
  | some r =>
    simp only []
    split_ifs <;> exact fun h => Outcome.noConfusion h

theorem be_parse_string_ne_nofuel (einval : Bool) (mem : List Nat) (cur : Nat) :
    be_parse_string einval mem cur ≠ .nofuel := by
  unfold be_parse_string
  cases h0 : parse_string einval mem cur with
  | nofuel => exact absurd h0 (parse_string_ne_nofuel einval mem cur)
  | fault => exact fun h => Outcome.noConfusion h
  | done r c =>
    cases r with
    | none => exact fun h => Outcome.noConfusion h
    | some dst => exact fun h => Outcome.noConfusion h

theorem be_parse_integer_ne_nofuel (einval : Bool) (mem : List Nat) (cur : Nat) :
    be_parse_integer einval mem cur ≠ .nofuel := by
  unfold be_parse_integer
  simp only []
  cases strtoll einval mem (cur + 1) with
  | none => exact fun h => Outcome.noConfusion h
  | some r =>
    simp only []
    split_ifs
    · exact fun h => Outcome.noConfusion h
    · cases mem[r.endptr]? with
      | none => exact fun h => Outcome.noConfusion h
      | some c =>
        simp only []
        split_ifs <;> exact fun h => Outcome.noConfusion h

/-- With fuel for twice the distance to `bp_end` no call runs out of it. -/
theorem fuel_all (einval : Bool) (mem : List Nat) (bp_end : Nat) : ∀ fuel : Nat,
    (∀ cur, 2 * (bp_end - cur) + 1 ≤ fuel →
      be_parse_bp einval mem bp_end fuel cur ≠ .nofuel) ∧
    (∀ cur acc, 2 * (bp_end - cur) + 2 ≤ fuel →
      list_loop einval mem bp_end fuel cur acc ≠ .nofuel) ∧
    (∀ cur acc, 2 * (bp_end - cur) + 2 ≤ fuel →
      dict_loop einval mem bp_end fuel cur acc ≠ .nofuel) := by
  intro fuel
  induction fuel with
  | zero =>
    refine ⟨?_, ?_, ?_⟩
    · intro cur h
      omega
    · intro cur acc h
      omega
    · intro cur acc h
      omega
  | succ f ih =>
    obtain ⟨ihb, ihl, ihd⟩ := ih
    have hprog := (progress_all einval mem bp_end f).1
    refine ⟨?_, ?_, ?_⟩
    · intro cur hf
      cases hg : mem[cur]? with
      | none => rw [be_parse_bp_oob _ _ _ _ _ hg]; exact fun h => Outcome.noConfusion h
      | some c =>
        by_cases hstop : c = 0 ∨ bp_end ≤ cur
        · rw [be_parse_bp_stop _ _ _ _ _ c hg hstop]
          exact fun h => Outcome.noConfusion h
        have hlt : cur < bp_end := by
          by_contra hcon
          exact hstop (Or.inr (by omega))
        by_cases hd : isdigit c = true
        · rw [be_parse_bp_digit _ _ _ _ _ c hg hd hlt]
          exact be_parse_string_ne_nofuel einval mem cur
        by_cases hi : c = 105
        · subst hi
          rw [be_parse_bp_i _ _ _ _ _ hg hlt]
          exact be_parse_integer_ne_nofuel einval mem cur
        by_cases hl : c = 108
        · subst hl
          rw [be_parse_bp_l _ _ _ _ _ hg hlt]
          unfold be_parse_list
          have := ihl (cur + 1) [] (by omega)
          cases hloop : list_loop einval mem bp_end f (cur + 1) [] with
          | nofuel => exact absurd hloop this
          | fault => exact fun h => Outcome.noConfusion h
          | done l c1 =>
            simp only []
            cases mem[c1]? with
            | none => exact fun h => Outcome.noConfusion h
            | some ch =>
              simp only []
              split_ifs <;> exact fun h => Outcome.noConfusion h
        by_cases hdd : c = 100
        · subst hdd
          rw [be_parse_bp_d _ _ _ _ _ hg hlt]
          unfold be_parse_dict
          have := ihd (cur + 1) [] (by omega)
          cases hloop : dict_loop einval mem bp_end f (cur + 1) [] with
          | nofuel => exact absurd hloop this
          | fault => exact fun h => Outcome.noConfusion h
          | done l c1 =>
            simp only []
            cases mem[c1]? with
            | none => exact fun h => Outcome.noConfusion h
            | some ch =>
              simp only []
              split_ifs <;> exact fun h => Outcome.noConfusion h
        · rw [be_parse_bp_other _ _ _ _ _ c hg (by simpa using hd) hi hl hdd]
          exact fun h => Outcome.noConfusion h
    · intro cur acc hf
      simp only [list_loop]
      cases mem[cur]? with
      | none => exact fun h => Outcome.noConfusion h
      | some c =>
        simp only []
        split_ifs
        · have hb0 := ihb cur (by omega)
          cases hb : be_parse_bp einval mem bp_end f cur with
          | nofuel => exact absurd hb hb0
          | fault => exact fun h => Outcome.noConfusion h
          | done rb cb =>
            cases rb with
            | none => exact fun h => Outcome.noConfusion h
            | some ben =>
              have hp := (hprog cur (some ben) cb hb).2 rfl
              exact ihl cb (ben :: acc) (by omega)
        · exact fun h => Outcome.noConfusion h
    · intro cur acc hf
      simp only [dict_loop]
      cases mem[cur]? with
      | none => exact fun h => Outcome.noConfusion h
      | some c =>
        simp only []
        split_ifs
        · cases hs : parse_string einval mem cur with
          | nofuel => exact absurd hs (parse_string_ne_nofuel einval mem cur)
          | fault => exact fun h => Outcome.noConfusion h
          | done rs cs =>
            cases rs with
            | none => exact fun h => Outcome.noConfusion h
            | some dst =>
              have hps := (parse_string_progress einval mem cur (some dst) cs hs).2 rfl
              have hb0 := ihb cs (by omega)
              simp only []
              cases hb : be_parse_bp einval mem bp_end f cs with
              | nofuel => exact absurd hb hb0
              | fault => exact fun h => Outcome.noConfusion h
              | done rb cb =>
                cases rb with
                | none => exact fun h => Outcome.noConfusion h
                | some ben =>
                  have hp := (hprog cs (some ben) cb hb).2 rfl
                  exact ihd cb (ben.set_dictkey dst :: acc) (by omega)
        · exact fun h => Outcome.noConfusion h

/-- The fuel that `be_nparse` supplies is enough. -/
theorem be_parse_bp_fuel_enough (einval : Bool) (mem : List Nat) (slen : Nat) :
    be_parse_bp einval mem slen (2 * slen + 2) 0 ≠ .nofuel :=
  (fuel_all einval mem slen (2 * slen + 2)).1 0 (by omega)

/-- The function `be_nparse` is defined on every memory and declared length: it
never runs out of fuel. -/
theorem be_nparse_total (einval : Bool) (mem : List Nat) (slen : Nat) :
    be_nparse einval mem slen ≠ .nofuel := by
  have key : ∀ n, be_run einval mem n ≠ .nofuel := by
    intro n
    unfold be_run
    have := be_parse_bp_fuel_enough einval mem n
    cases hb : be_parse_bp einval mem n (2 * n + 2) 0 with
    | nofuel => exact absurd hb this
    | fault => exact fun h => Decoded.noConfusion h
    | done r c => exact fun h => Decoded.noConfusion h
  unfold be_nparse
  split_ifs
  · cases strlen mem with
    | none => exact fun h => Decoded.noConfusion h
    | some n => exact key n
  · exact key slen

/-! ## Unclosed lists -/

/-- Nested list openers up to `bp_end`, with a NUL byte at `bp_end`: every
level fails, with the cursor at `bp_end`. -/
theorem be_parse_bp_openers (einval : Bool) (n : Nat) (rest : List Nat) :
    ∀ (d k fuel : Nat), 1 ≤ d → k + d = n → 2 * d + 1 ≤ fuel →
      be_parse_bp einval (List.replicate n 108 ++ 0 :: rest) n fuel k = .done none n := by
  have hget : ∀ i, i < n → (List.replicate n 108 ++ 0 :: rest)[i]? = some 108 := by
    intro i hi
    rw [List.getElem?_append_left (by simpa using hi)]
    simp [List.getElem?_replicate, hi]
  have hnul : (List.replicate n 108 ++ 0 :: rest)[n]? = some 0 :=
    getElem?_append_cons _ _ _ _ (by simp)
  intro d
  induction d with
  | zero => intro k fuel h; omega
  | succ d ih =>
    intro k fuel _ hk hf
    obtain ⟨f, rfl⟩ : ∃ f, fuel = f + 1 + 1 := ⟨fuel - 2, by omega⟩
    rw [be_parse_bp_l _ _ _ _ _ (hget k (by omega)) (by omega)]
    unfold be_parse_list
    by_cases hd : d = 0
    · subst hd
      have hk1 : k + 1 = n := by omega
      rw [hk1]
      have hl : list_loop einval (List.replicate n 108 ++ 0 :: rest) n (f + 1) n [] =
          .done [] n := by
        simp only [list_loop, hnul]
        simp
      rw [hl]
      simp only [hnul]
      simp
    · have hg1 := hget (k + 1) (by omega)
      have hcond : (108 : Nat) ≠ 0 ∧ n ≠ k + 1 := ⟨by decide, by omega⟩
      simp only [list_loop, hg1]
      rw [if_pos hcond, ih (k + 1) f (by omega) (by omega) (by omega)]
      simp only [hnul]
      simp

/-- The input of `n` list openers decodes to a failure when the byte after it
is the terminating NUL. -/
theorem be_nparse_openers_nul (einval : Bool) (n : Nat) (rest : List Nat) (hn : 1 ≤ n) :
    be_nparse einval (List.replicate n 108 ++ 0 :: rest) n = .ret none := by
  rw [be_nparse_pos _ _ _ (by omega)]
  unfold be_run
  rw [be_parse_bp_openers einval n rest n 0 (2 * n + 2) hn (by omega) (by omega)]

/-- C11: the code at the failing input.  The input is `ll` (declared length
2).  When the memory goes on with `ee`, the decoder reads those bytes and
returns a list in a list; when the memory stops where the input does, the
innermost loop reads the byte after it. -/
theorem C11_unclosed_lists_read_on :
    be_nparse false (bytes "llee") 2 = .ret (some (.BET_LIST none [.BET_LIST none []])) ∧
    be_nparse true (bytes "llee") 2 = .ret (some (.BET_LIST none [.BET_LIST none []])) ∧
    be_nparse false (bytes "ll") 2 = .fault ∧
    be_nparse true (bytes "ll") 2 = .fault :=
  ⟨rfl, rfl, rfl, rfl⟩

/-! ## A byte string without its colon -/

/-- The statement of `parse_string_digits` for `be_nparse`, for any declared
length that is not 0. -/
theorem be_nparse_string_digits (einval : Bool) (ds : List Nat) (sep : Nat) (b rest : List Nat)
    (slen : Nat) (hne : ds ≠ []) (hds : ∀ d ∈ ds, isdigit d = true) (hsep : isdigit sep = false)
    (hpos : 0 < digits_value ds) (hlen : b.length = digits_value ds)
    (hmax : digits_value ds < 2 ^ 63) (hslen : 0 < slen) :
    be_nparse einval (ds ++ sep :: (b ++ rest)) slen =
      .ret (some (.BET_STRING none (some (b ++ [0])))) := by
  rw [be_nparse_pos _ _ _ hslen]
  have hps := parse_string_digits einval [] ds sep b rest hne hds hsep hpos hlen hmax
  simp only [List.nil_append, List.length_nil] at hps
  cases ds with
  | nil => exact absurd rfl hne
  | cons a t =>
    have ha := hds a (List.mem_cons_self _ _)
    simp only [List.cons_append] at hps ⊢
    unfold be_run
    rw [show 2 * slen + 2 = (2 * slen + 1) + 1 from rfl,
      be_parse_bp_digit _ _ _ _ _ a (by simp) ha hslen]
    simp [be_parse_string, hps]

/-- C20, as the claim states it, fails at `4xspam`: the digits are followed by
`x` and the input decodes to the string `spam`. -/
theorem C20_missing_colon_counterexample :
    be_nparse false (bytes "4xspam") 6 ≠ .ret none ∧
    be_nparse true (bytes "4xspam") 6 ≠ .ret none := by
  rw [show be_nparse false (bytes "4xspam") 6 =
      .ret (some (.BET_STRING none (some (bytes "spam" ++ [0])))) from rfl,
    show be_nparse true (bytes "4xspam") 6 =
      .ret (some (.BET_STRING none (some (bytes "spam" ++ [0])))) from rfl]
  simp

/-- C20, amended.  The byte after the digit run is skipped whatever it is:
for a run of digits with a value `n ≥ 1`, a byte that is not a digit, and `n`
bytes `b`, the input decodes to the string node with the bytes `b`. -/
theorem C20_separator_not_checked (einval : Bool) (ds : List Nat) (sep : Nat)
    (b rest : List Nat) (hne : ds ≠ []) (hds : ∀ d ∈ ds, isdigit d = true)
    (hsep : isdigit sep = false) (hpos : 0 < digits_value ds)
    (hlen : b.length = digits_value ds) (hmax : digits_value ds < 2 ^ 63) :
    be_nparse einval (ds ++ sep :: (b ++ rest)) (ds.length + 1 + b.length) =
      .ret (some (.BET_STRING none (some (b ++ [0])))) :=
  be_nparse_string_digits einval ds sep b rest _ hne hds hsep hpos hlen hmax (by omega)

/-- C20, amended, at `4xspam`. -/
theorem C20_separator_not_checked_witness :
    be_nparse false (bytes "4xspam") 6 =
      .ret (some (.BET_STRING none (some (bytes "spam" ++ [0])))) :=
  C20_separator_not_checked false [52] 120 (bytes "spam") [] (by decide) (by decide)
    (by decide) (by decide) (by decide) (by decide)

/-! ## A key without a value -/

/-- The dictionary loop on the entries `es` followed by any input `tl` on which
the loop stops `j` bytes further without a new entry: every entry of `es` is
put at the head of the queue first. -/
theorem dict_loop_through (einval : Bool) (tl : List Nat) (bp_end j N : Nat)
    (hbase : ∀ (pre : List Nat) (acc : List bencode) (fuel : Nat), N ≤ fuel →
      pre.length < bp_end →
      dict_loop einval (pre ++ tl) bp_end fuel pre.length acc = .done acc (pre.length + j)) :
    ∀ (es : List (List Nat × List Nat × bencode)) (pre : List Nat) (acc : List bencode)
      (fuel : Nat),
      (∀ p ∈ es, p.1 ≠ [] ∧ p.1.length < 2 ^ 63 ∧ decodes_to einval p.2.1 p.2.2) →
      2 * (dict_body es).length + N ≤ fuel →
      pre.length + (dict_body es).length < bp_end →
      dict_loop einval (pre ++ (dict_body es ++ tl)) bp_end fuel pre.length acc =
        .done ((dict_children es).reverse ++ acc)
          (pre.length + (dict_body es).length + j) := by
  intro es
  induction es with
  | nil =>
    intro pre acc fuel _ hf hend
    simp only [dict_body, List.length_nil, Nat.add_zero, List.nil_append, Nat.mul_zero,
      Nat.zero_add] at hf hend ⊢
    rw [hbase pre acc fuel hf hend]
    rfl
  | cons p es ih =>
    obtain ⟨b, e, v⟩ := p
    intro pre acc fuel hall hf hend
    obtain ⟨hb0, hbmax, hev⟩ := hall (b, e, v) (List.mem_cons_self _ _)
    simp only [] at hb0 hbmax hev
    have hbpos : 0 < b.length := List.length_pos.2 hb0
    obtain ⟨h2, h3, h4⟩ := decimal_natCast b.length
    obtain ⟨c, t, hct, hcd, hc0⟩ := decimal_head b.length
    simp only [dict_body, key_text, List.length_append, List.length_cons] at hf hend ⊢
    have hdl : 1 ≤ (decimal (b.length : Int)).length := by
      rw [hct]
      simp
    obtain ⟨f, rfl⟩ : ∃ f, fuel = f + 1 := ⟨fuel - 1, by omega⟩
    have hmem : pre ++ (decimal (b.length : Int) ++ 58 :: b ++ (e ++ dict_body es) ++ tl) =
        pre ++ (decimal (b.length : Int) ++
          58 :: (b ++ (e ++ (dict_body es ++ tl)))) := by simp
    have hmem2 : pre ++ (decimal (b.length : Int) ++
          58 :: (b ++ (e ++ (dict_body es ++ tl)))) =
        (pre ++ (decimal (b.length : Int) ++ 58 :: b)) ++ (e ++ (dict_body es ++ tl)) := by
      simp
    have hg : (pre ++ (decimal (b.length : Int) ++
          58 :: (b ++ (e ++ (dict_body es ++ tl)))))[pre.length]? = some c := by
      rw [hct]
      exact getElem?_append_cons _ _ _ _ rfl
    have hcond : c ≠ 0 ∧ bp_end ≠ pre.length := ⟨hc0, by omega⟩
    have hps := parse_string_digits einval pre (decimal (b.length : Int)) 58 b
      (e ++ (dict_body es ++ tl)) h2 h3 (by decide) (by omega) (by omega) (by omega)
    have hbp := decodes_to_frame einval e v hev (pre ++ (decimal (b.length : Int) ++ 58 :: b))
      (dict_body es ++ tl) f bp_end (by omega)
      (by simp only [List.length_append, List.length_cons]; omega)
    have hlen1 : (pre ++ (decimal (b.length : Int) ++ 58 :: b)).length =
        pre.length + (decimal (b.length : Int)).length + 1 + b.length := by
      simp only [List.length_append, List.length_cons]
      omega
    have hrec := ih ((pre ++ (decimal (b.length : Int) ++ 58 :: b)) ++ e)
      (v.set_dictkey (some (b ++ [0])) :: acc) f
      (fun q hq => hall q (List.mem_cons_of_mem _ hq)) (by omega)
      (by rw [List.length_append, hlen1]; omega)
    rw [List.length_append, List.append_assoc, ← hmem2] at hrec
    rw [← hmem2, hlen1] at hbp
    rw [hmem]
    simp only [dict_loop, hg]
    rw [if_pos hcond, hps]
    simp only []
    rw [hbp]
    simp only []
    rw [hlen1] at hrec
    rw [hrec]
    simp [dict_children, Nat.add_assoc]
    omega

/-- The dictionary loop at a key that the closing `e` follows: the key is
parsed, no value is, and the loop ends with the cursor at the `e`. -/
theorem dict_loop_lone_key (einval : Bool) (b rest : List Nat) (bp_end : Nat)
    (hb0 : b ≠ []) (hbmax : b.length < 2 ^ 63) (pre : List Nat) (acc : List bencode)
    (fuel : Nat) (hf : 2 ≤ fuel) (hend : pre.length < bp_end) :
    dict_loop einval (pre ++ (key_text b ++ 101 :: rest)) bp_end fuel pre.length acc =
      .done acc (pre.length + (key_text b).length) := by
  have hbpos : 0 < b.length := List.length_pos.2 hb0
  obtain ⟨h2, h3, h4⟩ := decimal_natCast b.length
  obtain ⟨c, t, hct, hcd, hc0⟩ := decimal_head b.length
  obtain ⟨f, rfl⟩ : ∃ f, fuel = f + 1 + 1 := ⟨fuel - 2, by omega⟩
  have hmem : pre ++ (key_text b ++ 101 :: rest) =
      pre ++ (decimal (b.length : Int) ++ 58 :: (b ++ 101 :: rest)) := by
    simp [key_text]
  have hg : (pre ++ (decimal (b.length : Int) ++ 58 :: (b ++ 101 :: rest)))[pre.length]? =
      some c := by
    rw [hct]
    exact getElem?_append_cons _ _ _ _ rfl
  have hcond : c ≠ 0 ∧ bp_end ≠ pre.length := ⟨hc0, by omega⟩
  have hps := parse_string_digits einval pre (decimal (b.length : Int)) 58 b
    (101 :: rest) h2 h3 (by decide) (by omega) (by omega) (by omega)
  have hklen : (key_text b).length = (decimal (b.length : Int)).length + 1 + b.length := by
    simp [key_text]
    omega
  have hge : (pre ++ (decimal (b.length : Int) ++ 58 :: (b ++ 101 :: rest)))[
      pre.length + (decimal (b.length : Int)).length + 1 + b.length]? = some 101 := by
    have : pre ++ (decimal (b.length : Int) ++ 58 :: (b ++ 101 :: rest)) =
        (pre ++ (decimal (b.length : Int) ++ 58 :: b)) ++ 101 :: rest := by simp
    rw [this]
    exact getElem?_append_cons _ _ _ _ (by simp; omega)
  rw [hmem, hklen]
  simp only [dict_loop, hg]
  rw [if_pos hcond, hps]
  simp only []
  rw [be_parse_bp_other _ _ _ _ _ 101 hge (by decide) (by decide) (by decide) (by decide)]
  simp [Nat.add_assoc]

/-- The statement for `be_nparse` on a dictionary whose last key has no
value. -/
theorem be_nparse_dict_lone_key (einval : Bool) (es : List (List Nat × List Nat × bencode))
    (b rest : List Nat)
    (h : ∀ p ∈ es, p.1 ≠ [] ∧ p.1.length < 2 ^ 63 ∧ decodes_to einval p.2.1 p.2.2)
    (hb0 : b ≠ []) (hbmax : b.length < 2 ^ 63) :
    be_nparse einval (100 :: (dict_body es ++ (key_text b ++ 101 :: rest)))
        ((dict_body es).length + (key_text b).length + 2) =
      .ret (some (.BET_DICT none (dict_children es).reverse)) := by
  rw [be_nparse_pos _ _ _ (by omega)]
  unfold be_run
  have hfuel : 2 * ((dict_body es).length + (key_text b).length + 2) + 2 =
      (2 * (dict_body es).length + 2 * (key_text b).length + 5) + 1 := by omega
  rw [hfuel, be_parse_bp_d _ _ _ _ _ (by simp) (by omega)]
  have hl := dict_loop_through einval (key_text b ++ 101 :: rest)
    ((dict_body es).length + (key_text b).length + 2) (key_text b).length 2
    (fun pre acc fuel hf hend =>
      dict_loop_lone_key einval b rest _ hb0 hbmax pre acc fuel hf hend)
    es [100] [] (2 * (dict_body es).length + 2 * (key_text b).length + 5) h (by omega)
    (by simp; omega)
  simp only [List.singleton_append, List.length_singleton, List.append_nil] at hl
  have hg : (100 :: (dict_body es ++ (key_text b ++ 101 :: rest)))[
      1 + (dict_body es).length + (key_text b).length]? = some 101 := by
    have : 100 :: (dict_body es ++ (key_text b ++ 101 :: rest)) =
        (100 :: (dict_body es ++ key_text b)) ++ 101 :: rest := by simp
    rw [this]
    exact getElem?_append_cons _ _ _ _ (by simp; omega)
  unfold be_parse_dict
  rw [show (0 : Nat) + 1 = 1 from rfl, hl]
  simp only [hg]
  simp

/-- C19, as the claim states it, fails at `d3:cowe`: the input decodes to a
dictionary, an empty one. -/
theorem C19_lone_key_counterexample :
    be_nparse false (bytes "d3:cowe") 7 ≠ .ret none ∧
    be_nparse true (bytes "d3:cowe") 7 ≠ .ret none := by
  rw [show be_nparse false (bytes "d3:cowe") 7 = .ret (some (.BET_DICT none [])) from rfl,
    show be_nparse true (bytes "d3:cowe") 7 = .ret (some (.BET_DICT none [])) from rfl]
  simp

/-- C19, amended.  A key that the closing `e` follows is dropped: for complete
entries (non-empty keys, values that decode by themselves) followed by one
more encoded non-empty key and the closing `e`, the input decodes to the
dictionary node of the complete entries (in reverse encounter order). -/
theorem C19_lone_key_dropped (einval : Bool) (es : List (List Nat × List Nat × bencode))
    (b rest : List Nat)
    (h : ∀ p ∈ es, p.1 ≠ [] ∧ p.1.length < 2 ^ 63 ∧ decodes_to einval p.2.1 p.2.2)
    (hb0 : b ≠ []) (hbmax : b.length < 2 ^ 63) :
    be_nparse einval (100 :: (dict_body es ++ (key_text b ++ 101 :: rest)))
        ((dict_body es).length + (key_text b).length + 2) =
      .ret (some (.BET_DICT none (dict_children es).reverse)) :=
  be_nparse_dict_lone_key einval es b rest h hb0 hbmax

/-- C19, amended, at `d3:cow3:moo4:spame`: the key `spam` is dropped. -/
theorem C19_lone_key_dropped_witness :
    be_nparse false (bytes "d3:cow3:moo4:spame") 18 =
      .ret (some (.BET_DICT none
        [.BET_STRING (some (bytes "cow" ++ [0])) (some (bytes "moo" ++ [0]))])) :=
  C19_lone_key_dropped false
    [(bytes "cow", bytes "3:moo", .BET_STRING none (some (bytes "moo" ++ [0])))]
    (bytes "spam") []
    (by
      intro p hp
      simp only [List.mem_singleton] at hp
      subst hp
      exact ⟨by decide, by decide, rfl⟩)
    (by decide) (by decide)

/-! ## The loader: a single file -/

theorem perm_three {α : Type} (a b c : α) (es : List α) (h : es.Perm [a, b, c]) :
    es ∈ [[a, b, c], [b, a, c], [c, b, a], [b, c, a], [c, a, b], [a, c, b]] := by
  have := List.mem_permutations.2 h
  simpa [List.permutations] using this

theorem be_strdup_string_node (k : Option (List Nat)) (s : List Nat) :
    be_strdup (string_node k s) = some (s ++ [0]) := by
  unfold string_node
  by_cases hs : s = []
  · subst hs
    rfl
  · simp only [if_neg hs, be_strdup, be_strlen, List.length_append, List.length_singleton,
      Nat.add_sub_cancel, List.take_left]

/-- C12.  For every byte string `s` and all `n > 0` and `p > 0`, `load_torrent`
on the top-level dictionary whose only entry is `info`, a dictionary with
exactly the entries `name = s`, `length = n` and `piece length = p` in any
order, returns 0 and leaves a descriptor whose file list has the one entry
with path `s` and length `n`, and whose piece length is `p`. -/
theorem C12_single_file (s : List Nat) (n p : Nat) (es : List bencode)
    (hn : 0 < n) (hp : 0 < p)
    (hes : es.Perm [string_node (dictkey "name") s, .BET_INTEGER (dictkey "length") (n : Int),
      .BET_INTEGER (dictkey "piece length") (p : Int)]) :
    load_torrent torrent_init (.BET_DICT none [.BET_DICT (dictkey "info") es]) =
      .ret 0 { torrent_init with to_filelist := [⟨s ++ [0], n⟩], to_piecelen := p } := by
  have hmem := perm_three _ _ _ es hes
  have k1 : streq (bytes "info" ++ [0]) "announce" = false := rfl
  have k2 : streq (bytes "info" ++ [0]) "announce-list" = false := rfl
  have k3 : streq (bytes "info" ++ [0]) "info" = true := rfl
  have k4 : streq (bytes "name" ++ [0]) "pieces" = false := rfl
  have k5 : streq (bytes "name" ++ [0]) "name" = true := rfl
  have k6 : streq (bytes "length" ++ [0]) "piece length" = false := rfl
  have k7 : streq (bytes "length" ++ [0]) "length" = true := rfl
  have k8 : streq (bytes "piece length" ++ [0]) "piece length" = true := rfl
  have hn' : ¬ ((n : Int) ≤ 0) := by omega
  have hp' : ¬ ((p : Int) ≤ 0) := by omega
  have hn0 : n ≠ 0 := by omega
  have hsd := be_strdup_string_node (dictkey "name") s
  simp only [string_node, dictkey] at hsd
  simp only [List.mem_cons, List.mem_singleton, List.not_mem_nil, or_false] at hmem
  rcases hmem with rfl | rfl | rfl | rfl | rfl | rfl <;>
    simp [load_torrent, walk, load_torrent_step, load_torrent_rest, load_info,
      load_info_step, dictkey, string_node, torrent_init, k1, k2, k3, k4, k5,
      k6, k7, k8, hn', hp', hn0, hsd]

/-- C12, at the name `a`, the length 7 and the piece length 4, with the
entries in the order `length`, `piece length`, `name`. -/
theorem C12_single_file_witness :
    load_torrent torrent_init (.BET_DICT none [.BET_DICT (dictkey "info")
      [.BET_INTEGER (dictkey "length") 7, .BET_INTEGER (dictkey "piece length") 4,
        .BET_STRING (dictkey "name") (some [97, 0])]]) =
      .ret 0 { torrent_init with to_filelist := [⟨[97, 0], 7⟩], to_piecelen := 4 } := by
  have h := C12_single_file [97] 7 4
    [.BET_INTEGER (dictkey "length") ((7 : Nat) : Int),
      .BET_INTEGER (dictkey "piece length") ((4 : Nat) : Int),
      string_node (dictkey "name") [97]] (by decide) (by decide)
    (@List.perm_append_comm bencode
      [bencode.BET_INTEGER (dictkey "length") ((7 : Nat) : Int),
        bencode.BET_INTEGER (dictkey "piece length") ((4 : Nat) : Int)]
      [string_node (dictkey "name") [97]])
  simpa [string_node] using h

/-! ## The loader: failures -/

theorem streq_excl (k : List Nat) (a b : String) (h : streq k a = true)
    (hab : (bytes a == bytes b) = false) : streq k b = false := by
  unfold streq at h ⊢
  have : cstr k = bytes a := by simpa using h
  rw [this]
  exact hab

theorem not_loaded_ret {σ : Type} (r : Loaded σ) (h : not_loaded r) (hf : r ≠ .fault) :
    ∃ st, r = .ret (-1) st := by
  cases r with
  | fault => exact absurd rfl hf
  | ret rc st =>
    have : rc = -1 := h
    exact ⟨st, by rw [this]⟩

/-- A walk returns 0 or `-1`. -/
theorem walk_rc {σ : Type} (step : σ → bencode → Loaded σ) :
    ∀ (l : List bencode) (st : σ) (rc : Int) (st' : σ),
      walk step st l = .ret rc st' → rc = 0 ∨ rc = -1 := by
  intro l
  induction l with
  | nil =>
    intro st rc st' h
    simp only [walk, Loaded.ret.injEq] at h
    exact Or.inl h.1.symm
  | cons b l ih =>
    intro st rc st' h
    simp only [walk] at h
    cases hs : step st b with
    | fault => rw [hs] at h; exact Loaded.noConfusion h
    | ret rc1 st1 =>
      rw [hs] at h
      simp only [] at h
      split_ifs at h
      · simp only [Loaded.ret.injEq] at h
        exact Or.inr h.1.symm
      · exact ih st1 rc st' h

/-- A walk over a queue with an entry whose round never gives 0 does not
succeed. -/
theorem walk_not_loaded_of_mem {σ : Type} (step : σ → bencode → Loaded σ) (bad : bencode)
    (hbad : ∀ st, not_loaded (step st bad)) :
    ∀ (l : List bencode), bad ∈ l → ∀ st, not_loaded (walk step st l) := by
  intro l
  induction l with
  | nil => intro h; exact absurd h (List.not_mem_nil _)
  | cons b l ih =>
    intro hmem st
    simp only [walk]
    cases hs : step st b with
    | fault => exact True.intro
    | ret rc st1 =>
      simp only []
      split_ifs with hrc
      · rfl
      · rcases List.mem_cons.1 hmem with hb | hb
        · subst hb
          have := hbad st
          rw [hs] at this
          have h1 : rc = -1 := this
          have h0 : rc = 0 := by simpa using hrc
          omega
        · exact ih hb st1

/-- A property that every round which gives 0 keeps holds after a walk that
gives 0. -/
theorem walk_invariant {σ : Type} (step : σ → bencode → Loaded σ) (P : σ → Prop) :
    ∀ (l : List bencode),
      (∀ b ∈ l, ∀ st st', P st → step st b = .ret 0 st' → P st') →
      ∀ st st', P st → walk step st l = .ret 0 st' → P st' := by
  intro l
  induction l with
  | nil =>
    intro _ st st' hP h
    simp only [walk, Loaded.ret.injEq, true_and] at h
    rw [← h]
    exact hP
  | cons b l ih =>
    intro hstep st st' hP h
    simp only [walk] at h
    cases hs : step st b with
    | fault => rw [hs] at h; exact Loaded.noConfusion h
    | ret rc st1 =>
      rw [hs] at h
      simp only [] at h
      split_ifs at h with hrc
      · simp only [Loaded.ret.injEq] at h
        omega
      · have h0 : rc = 0 := by simpa using hrc
        subst h0
        exact ih (fun c hc => hstep c (List.mem_cons_of_mem _ hc)) st1 st'
          (hstep b (List.mem_cons_self _ _) st st1 hP hs) h

/-- What a round of `load_info` that gives 0 leaves alone. -/
theorem load_info_step_keeps (st st' : info_state) (e : bencode)
    (h : load_info_step st e = .ret 0 st') :
    (is_files e = false → st'.is_single_file = st.is_single_file) ∧
    (is_name e = false → st'.tname = st.tname) ∧
    (is_length_pos e = false → st'.fsize = st.fsize) := by
  cases e with
  | BET_DICT k l =>
    simp only [load_info_step, Loaded.ret.injEq, true_and] at h
    subst h
    exact ⟨fun _ => rfl, fun _ => rfl, fun _ => rfl⟩
  | BET_LIST k l =>
    cases k with
    | none => simp [load_info_step] at h
    | some key =>
      simp only [load_info_step] at h
      by_cases hk : streq key "files" = true
      · refine ⟨fun hf => ?_, fun _ => ?_, fun _ => ?_⟩
        · simp [is_files, hk] at hf
        · rw [if_pos hk] at h
          cases hl : load_files st.tor l with
          | fault => rw [hl] at h; exact Loaded.noConfusion h
          | ret rc tor1 =>
            rw [hl] at h
            simp only [] at h
            split_ifs at h
            · simp at h
            · simp only [Loaded.ret.injEq, true_and] at h
              subst h
              rfl
        · rw [if_pos hk] at h
          cases hl : load_files st.tor l with
          | fault => rw [hl] at h; exact Loaded.noConfusion h
          | ret rc tor1 =>
            rw [hl] at h
            simp only [] at h
            split_ifs at h
            · simp at h
            · simp only [Loaded.ret.injEq, true_and] at h
              subst h
              rfl
      · rw [if_neg hk] at h
        simp only [Loaded.ret.injEq, true_and] at h
        subst h
        exact ⟨fun _ => rfl, fun _ => rfl, fun _ => rfl⟩
  | BET_INTEGER k n =>
    cases k with
    | none => simp [load_info_step] at h
    | some key =>
      simp only [load_info_step] at h
      split_ifs at h with h1 h2 h3 h4
      · simp at h
      · simp only [Loaded.ret.injEq, true_and] at h
        subst h
        exact ⟨fun _ => rfl, fun _ => rfl, fun _ => rfl⟩
      · simp at h
      · simp only [Loaded.ret.injEq, true_and] at h
        subst h
        refine ⟨fun _ => rfl, fun _ => rfl, fun hl => ?_⟩
        have : 0 < n := by omega
        simp [is_length_pos, h3, this] at hl
      · simp only [Loaded.ret.injEq, true_and] at h
        subst h
        exact ⟨fun _ => rfl, fun _ => rfl, fun _ => rfl⟩
  | BET_STRING k s =>
    cases k with
    | none => simp [load_info_step] at h
    | some key =>
      simp only [load_info_step] at h
      split_ifs at h with h1 h2
      · cases hd : be_strdup (bencode.BET_STRING (some key) s) with
        | none => rw [hd] at h; simp at h
        | some d =>
          rw [hd] at h
          simp only [Loaded.ret.injEq, true_and] at h
          subst h
          exact ⟨fun _ => rfl, fun _ => rfl, fun _ => rfl⟩
      · refine ⟨fun _ => ?_, fun hn => ?_, fun _ => ?_⟩
        · cases hd : be_strdup (bencode.BET_STRING (some key) s) with
          | none => rw [hd] at h; simp at h
          | some d =>
            rw [hd] at h
            simp only [Loaded.ret.injEq, true_and] at h
            subst h
            rfl
        · simp [is_name, h2] at hn
        · cases hd : be_strdup (bencode.BET_STRING (some key) s) with
          | none => rw [hd] at h; simp at h
          | some d =>
            rw [hd] at h
            simp only [Loaded.ret.injEq, true_and] at h
            subst h
            rfl
      · simp only [Loaded.ret.injEq, true_and] at h
        subst h
        exact ⟨fun _ => rfl, fun _ => rfl, fun _ => rfl⟩

/-- The round of `load_torrent` on an entry `info` that is a dictionary is the
call of `load_info`. -/
theorem load_torrent_step_info (tor : torrent) (ik : List Nat) (ies : List bencode)
    (hik : streq ik "info" = true) :
    load_torrent_step tor (.BET_DICT (some ik) ies) =
      match load_info tor ies with
      | .fault => .fault
      | .ret rc tor1 => if rc ≠ 0 then .ret (-1) tor1 else .ret 0 tor1 := by
  have h1 : streq ik "announce" = false := streq_excl ik "info" "announce" hik rfl
  have h2 : streq ik "announce-list" = false := streq_excl ik "info" "announce-list" hik rfl
  simp [load_torrent_step, load_torrent_rest, h1, h2, hik]

/-- When `load_info` does not succeed on the dictionary of an entry `info`,
`load_torrent` does not succeed on a dictionary with that entry. -/
theorem load_torrent_not_loaded (tor : torrent) (k : Option (List Nat))
    (entries : List bencode) (ik : List Nat) (ies : List bencode)
    (hmem : .BET_DICT (some ik) ies ∈ entries) (hik : streq ik "info" = true)
    (hinfo : ∀ tor1, not_loaded (load_info tor1 ies)) :
    not_loaded (load_torrent tor (.BET_DICT k entries)) := by
  unfold load_torrent
  refine walk_not_loaded_of_mem load_torrent_step _ ?_ entries hmem tor
  intro tor1
  rw [load_torrent_step_info tor1 ik ies hik]
  have := hinfo tor1
  cases hl : load_info tor1 ies with
  | fault => exact True.intro
  | ret rc tor2 =>
    rw [hl] at this
    have hrc : rc = -1 := this
    subst hrc
    rfl

/-- Without an entry `files` and without a string `name` or without a positive
integer `length`, `load_info` does not succeed. -/
theorem load_info_without_file (tor : torrent) (ies : List bencode)
    (hfiles : ∀ e ∈ ies, is_files e = false)
    (hpair : (∀ e ∈ ies, is_name e = false) ∨ (∀ e ∈ ies, is_length_pos e = false)) :
    not_loaded (load_info tor ies) := by
  unfold load_info
  cases hw : walk load_info_step ⟨tor, none, 0, true⟩ ies with
  | fault => exact True.intro
  | ret rc st =>
    simp only []
    rcases walk_rc load_info_step ies _ rc st hw with h0 | h1
    · subst h0
      have hsingle : st.is_single_file = true :=
        walk_invariant load_info_step (fun s => s.is_single_file = true) ies
          (fun b hb s s' hP hs => by
            show s'.is_single_file = _
            rw [(load_info_step_keeps s s' b hs).1 (hfiles b hb)]
            exact hP)
          _ st rfl hw
      simp only [ne_eq, not_true_eq_false, if_false, hsingle, if_true]
      rcases hpair with hname | hlen
      · have hn : st.tname = none :=
          walk_invariant load_info_step (fun s => s.tname = none) ies
            (fun b hb s s' hP hs => by
              show s'.tname = _
              rw [(load_info_step_keeps s s' b hs).2.1 (hname b hb)]
              exact hP)
            _ st rfl hw
        rw [hn]
        rfl
      · have hz : st.fsize = 0 :=
          walk_invariant load_info_step (fun s => s.fsize = 0) ies
            (fun b hb s s' hP hs => by
              show s'.fsize = _
              rw [(load_info_step_keeps s s' b hs).2.2 (hlen b hb)]
              exact hP)
            _ st rfl hw
        cases st.tname with
        | none => rfl
        | some path =>
          simp only [hz, if_true]
          rfl
    · subst h1
      rfl

/-- C13.  For every top-level dictionary with an entry `info` that is a
dictionary without an entry `files` and without a string `name`, or without an
integer `length` above 0, `load_torrent` returns `-1`, provided the walk does
not read through a null pointer (as an entry without a key makes it do). -/
theorem C13_info_without_file_fails (tor : torrent) (k : Option (List Nat))
    (entries : List bencode) (ik : List Nat) (ies : List bencode)
    (hmem : .BET_DICT (some ik) ies ∈ entries) (hik : streq ik "info" = true)
    (hfiles : ∀ e ∈ ies, is_files e = false)
    (hpair : (∀ e ∈ ies, is_name e = false) ∨ (∀ e ∈ ies, is_length_pos e = false))
    (hrun : load_torrent tor (.BET_DICT k entries) ≠ .fault) :
    ∃ tor', load_torrent tor (.BET_DICT k entries) = .ret (-1) tor' :=
  not_loaded_ret _
    (load_torrent_not_loaded tor k entries ik ies hmem hik
      (fun tor1 => load_info_without_file tor1 ies hfiles hpair)) hrun

/-- C13, at the dictionary with a comment and an `info` that has a name and no
length. -/
theorem C13_info_without_file_fails_witness :
    ∃ tor', load_torrent torrent_init (.BET_DICT none
      [.BET_STRING (dictkey "comment") (some [120, 0]),
       .BET_DICT (dictkey "info") [.BET_STRING (dictkey "name") (some [97, 0])]]) =
      .ret (-1) tor' :=
  C13_info_without_file_fails torrent_init none _ (bytes "info" ++ [0])
    [.BET_STRING (dictkey "name") (some [97, 0])]
    (List.mem_cons_of_mem _ (List.mem_cons_self _ _)) rfl
    (by
      intro e he
      simp only [List.mem_singleton] at he
      subst he
      rfl)
    (Or.inr (by
      intro e he
      simp only [List.mem_singleton] at he
      subst he
      rfl))
    (by
      intro h
      have : load_torrent torrent_init (.BET_DICT none
        [.BET_STRING (dictkey "comment") (some [120, 0]),
         .BET_DICT (dictkey "info") [.BET_STRING (dictkey "name") (some [97, 0])]]) =
        .ret (-1) { torrent_init with to_comment := some [120, 0] } := rfl
      rw [this] at h
      exact Loaded.noConfusion h)

/-- An integer `length` that is not above 0 ends `load_file` with `-1`. -/
theorem load_file_nonpositive (tor : torrent) (dl : List bencode) (lk : List Nat) (n : Int)
    (hmem : .BET_INTEGER (some lk) n ∈ dl) (hlk : streq lk "length" = true) (hn : n ≤ 0) :
    not_loaded (load_file tor dl) := by
  have hw := walk_not_loaded_of_mem load_file_step (.BET_INTEGER (some lk) n)
    (fun st => by
      simp only [load_file_step, hlk, if_true, hn]
      rfl)
    dl hmem (none, 0)
  unfold load_file
  cases hr : walk load_file_step (none, 0) dl with
  | fault => exact True.intro
  | ret rc st =>
    rw [hr] at hw
    have hrc : rc = -1 := hw
    subst hrc
    obtain ⟨tname, fsize⟩ := st
    rfl

/-- An entry of `info` with a size that is not above 0 ends `load_info` with
`-1`: an integer `length` or `piece length`, or a list `files` with a
dictionary that has such an integer `length`. -/
theorem load_info_nonpositive (tor : torrent) (ies : List bencode)
    (hbad : (∃ lk n, .BET_INTEGER (some lk) n ∈ ies ∧
        (streq lk "length" = true ∨ streq lk "piece length" = true) ∧ n ≤ 0) ∨
      (∃ fk fl dk dl lk n, .BET_LIST (some fk) fl ∈ ies ∧ streq fk "files" = true ∧
        .BET_DICT dk dl ∈ fl ∧ .BET_INTEGER (some lk) n ∈ dl ∧
        streq lk "length" = true ∧ n ≤ 0)) :
    not_loaded (load_info tor ies) := by
  have hw : not_loaded (walk load_info_step ⟨tor, none, 0, true⟩ ies) := by
    rcases hbad with ⟨lk, n, hmem, hkey, hn⟩ | ⟨fk, fl, dk, dl, lk, n, hmem, hfk, hd, hi, hlk, hn⟩
    · refine walk_not_loaded_of_mem load_info_step _ (fun st => ?_) ies hmem _
      rcases hkey with hl | hpl
      · have hne : streq lk "piece length" = false :=
          streq_excl lk "length" "piece length" hl rfl
        simp only [load_info_step, hne, hl, if_true, hn]
        rfl
      · simp only [load_info_step, hpl, if_true, hn]
        rfl
    · refine walk_not_loaded_of_mem load_info_step _ (fun st => ?_) ies hmem _
      have hfs : not_loaded (load_files st.tor fl) := by
        unfold load_files
        refine walk_not_loaded_of_mem load_files_step _ (fun tor1 => ?_) fl hd st.tor
        exact load_file_nonpositive tor1 dl lk n hi hlk hn
      simp only [load_info_step, hfk, if_true]
      cases hl : load_files st.tor fl with
      | fault => exact True.intro
      | ret rc tor1 =>
        rw [hl] at hfs
        have hrc : rc = -1 := hfs
        subst hrc
        rfl
  unfold load_info
  cases hr : walk load_info_step ⟨tor, none, 0, true⟩ ies with
  | fault => exact True.intro
  | ret rc st =>
    rw [hr] at hw
    have hrc : rc = -1 := hw
    subst hrc
    rfl

/-- C14.  For every top-level dictionary whose dictionary `info` has an
integer `length` or `piece length` that is not above 0, or a list `files` with
a dictionary that has an integer `length` that is not above 0, `load_torrent`
returns `-1`, provided the walk does not read through a null pointer (as an
entry without a key makes it do). -/
theorem C14_nonpositive_size_fails (tor : torrent) (k : Option (List Nat))
    (entries : List bencode) (ik : List Nat) (ies : List bencode)
    (hmem : .BET_DICT (some ik) ies ∈ entries) (hik : streq ik "info" = true)
    (hbad : (∃ lk n, .BET_INTEGER (some lk) n ∈ ies ∧
        (streq lk "length" = true ∨ streq lk "piece length" = true) ∧ n ≤ 0) ∨
      (∃ fk fl dk dl lk n, .BET_LIST (some fk) fl ∈ ies ∧ streq fk "files" = true ∧
        .BET_DICT dk dl ∈ fl ∧ .BET_INTEGER (some lk) n ∈ dl ∧
        streq lk "length" = true ∧ n ≤ 0))
    (hrun : load_torrent tor (.BET_DICT k entries) ≠ .fault) :
    ∃ tor', load_torrent tor (.BET_DICT k entries) = .ret (-1) tor' :=
  not_loaded_ret _
    (load_torrent_not_loaded tor k entries ik ies hmem hik
      (fun tor1 => load_info_nonpositive tor1 ies hbad)) hrun

/-- C14, at an `info` with the name `a` and the length 0, and at an `info`
whose list `files` has a file of length `-1`. -/
theorem C14_nonpositive_size_fails_witness :
    (∃ tor', load_torrent torrent_init (.BET_DICT none
      [.BET_DICT (dictkey "info") [.BET_STRING (dictkey "name") (some [97, 0]),
        .BET_INTEGER (dictkey "length") 0]]) = .ret (-1) tor') ∧
    (∃ tor', load_torrent torrent_init (.BET_DICT none
      [.BET_DICT (dictkey "info") [.BET_LIST (dictkey "files")
        [.BET_DICT none [.BET_LIST (dictkey "path") [.BET_STRING none (some [97, 0])],
          .BET_INTEGER (dictkey "length") (-1)]]]]) = .ret (-1) tor') :=
  ⟨C14_nonpositive_size_fails torrent_init none _ (bytes "info" ++ [0])
      [.BET_STRING (dictkey "name") (some [97, 0]), .BET_INTEGER (dictkey "length") 0]
      (List.mem_cons_self _ _) rfl
      (Or.inl ⟨bytes "length" ++ [0], 0, List.mem_cons_of_mem _ (List.mem_cons_self _ _),
        Or.inl rfl, by decide⟩)
      (by
        intro h
        have : load_torrent torrent_init (.BET_DICT none
          [.BET_DICT (dictkey "info") [.BET_STRING (dictkey "name") (some [97, 0]),
            .BET_INTEGER (dictkey "length") 0]]) = .ret (-1) torrent_init := rfl
        rw [this] at h
        exact Loaded.noConfusion h),
   C14_nonpositive_size_fails torrent_init none _ (bytes "info" ++ [0])
      [.BET_LIST (dictkey "files")
        [.BET_DICT none [.BET_LIST (dictkey "path") [.BET_STRING none (some [97, 0])],
          .BET_INTEGER (dictkey "length") (-1)]]]
      (List.mem_cons_self _ _) rfl
      (Or.inr ⟨bytes "files" ++ [0], _, none, _, bytes "length" ++ [0], -1,
        List.mem_cons_self _ _, rfl, List.mem_cons_self _ _,
        List.mem_cons_of_mem _ (List.mem_cons_self _ _), rfl, by decide⟩)
      (by
        intro h
        have : load_torrent torrent_init (.BET_DICT none
          [.BET_DICT (dictkey "info") [.BET_LIST (dictkey "files")
            [.BET_DICT none [.BET_LIST (dictkey "path") [.BET_STRING none (some [97, 0])],
              .BET_INTEGER (dictkey "length") (-1)]]]]) = .ret (-1) torrent_init := rfl
        rw [this] at h
        exact Loaded.noConfusion h)⟩

/-! ## The loader: a descriptor without a file -/

/-- C15: the code at the failing inputs.  On the empty top-level dictionary
(the tree that `de` decodes to) and on a dictionary whose `info` has an empty
list `files`, `load_torrent` returns 0 and the file list of the descriptor is
empty. -/
theorem C15_loads_without_file :
    be_nparse true (bytes "de") 2 = .ret (some (.BET_DICT none [])) ∧
    load_torrent torrent_init (.BET_DICT none []) = .ret 0 torrent_init ∧
    load_torrent torrent_init (.BET_DICT none
      [.BET_DICT (dictkey "info") [.BET_LIST (dictkey "files") []]]) = .ret 0 torrent_init ∧
    torrent_init.to_filelist = [] :=
  ⟨rfl, rfl, rfl, rfl⟩

/-! ## The loader: unknown keys -/

/-- An entry whose round gives 0 and leaves the state alone can be taken out of
the queue. -/
theorem walk_skip {σ : Type} (step : σ → bencode → Loaded σ) (ben : bencode)
    (hskip : ∀ st, step st ben = .ret 0 st) (post : List bencode) :
    ∀ (pre : List bencode) (st : σ),
      walk step st (pre ++ ben :: post) = walk step st (pre ++ post) := by
  intro pre
  induction pre with
  | nil =>
    intro st
    simp [walk, hskip]
  | cons b pre ih =>
    intro st
    simp only [List.cons_append, walk]
    cases step st b with
    | fault => rfl
    | ret rc st1 =>
      simp only []
      split_ifs
      · rfl
      · exact ih st1

/-- The round of `load_torrent` on an entry with an unknown key does nothing. -/
theorem load_torrent_step_unknown (tor : torrent) (ben : bencode) (key : List Nat)
    (hkey : ben.dictkey_of = some key) (hunk : unknown_key key = true) :
    load_torrent_step tor ben = .ret 0 tor := by
  simp only [unknown_key, Bool.and_eq_true, Bool.not_eq_true', ] at hunk
  obtain ⟨⟨⟨⟨⟨h1, h2⟩, h3⟩, h4⟩, h5⟩, h6⟩ := hunk
  cases ben with
  | BET_DICT k l =>
    simp only [bencode.dictkey_of] at hkey
    subst hkey
    simp [load_torrent_step, load_torrent_rest, h1, h2, h6]
  | BET_LIST k l =>
    simp only [bencode.dictkey_of] at hkey
    subst hkey
    simp [load_torrent_step, load_torrent_rest, h1, h2]
  | BET_INTEGER k n =>
    simp only [bencode.dictkey_of] at hkey
    subst hkey
    simp [load_torrent_step, load_torrent_rest, h1, h2, h5]
  | BET_STRING k s =>
    simp only [bencode.dictkey_of] at hkey
    subst hkey
    simp [load_torrent_step, load_torrent_rest, h1, h2, h3, h4]

/-- C17, as the claim states it, fails for the key `comment` with a NUL byte
after it: it is none of the six keys, the decoder stores it, and the entry
with it sets the comment of the descriptor. -/
theorem C17_unknown_key_counterexample :
    bytes "comment" ++ [0] ∉ [bytes "announce", bytes "announce-list", bytes "comment",
      bytes "created by", bytes "creation date", bytes "info"] ∧
    be_nparse true (bytes "d8:comment" ++ [0] ++ bytes "1:xe") 15 =
      .ret (some (.BET_DICT none
        [.BET_STRING (some (bytes "comment" ++ [0] ++ [0])) (some (bytes "x" ++ [0]))])) ∧
    load_torrent torrent_init (.BET_DICT none
      [.BET_STRING (some (bytes "comment" ++ [0] ++ [0])) (some (bytes "x" ++ [0]))]) ≠
      load_torrent torrent_init (.BET_DICT none []) := by
  refine ⟨by decide, rfl, ?_⟩
  rw [show load_torrent torrent_init (.BET_DICT none
      [.BET_STRING (some (bytes "comment" ++ [0] ++ [0])) (some (bytes "x" ++ [0]))]) =
      .ret 0 { torrent_init with to_comment := some (bytes "x" ++ [0]) } from rfl,
    show load_torrent torrent_init (.BET_DICT none []) = .ret 0 torrent_init from rfl]
  simp [torrent_init]

/-- C17, amended.  An entry that has a key (a key that is not empty) which,
read as a C string up to its first NUL byte, is none of `announce`,
`announce-list`, `comment`, `created by`, `creation date`, `info`, is
ignored: with the entry, of any type, at any place of the top-level
dictionary, `load_torrent` gives what it gives without it. -/
theorem C17_unknown_key_ignored (tor : torrent) (k : Option (List Nat))
    (pre post : List bencode) (ben : bencode) (key : List Nat)
    (hkey : ben.dictkey_of = some key) (hunk : unknown_key key = true) :
    load_torrent tor (.BET_DICT k (pre ++ ben :: post)) =
      load_torrent tor (.BET_DICT k (pre ++ post)) := by
  unfold load_torrent
  exact walk_skip load_torrent_step ben
    (fun st => load_torrent_step_unknown st ben key hkey hunk) post pre tor

/-- C17, amended, at an integer with the key `private` in front of a
comment. -/
theorem C17_unknown_key_ignored_witness :
    load_torrent torrent_init (.BET_DICT none
      [.BET_INTEGER (dictkey "private") 1, .BET_STRING (dictkey "comment") (some [120, 0])]) =
    load_torrent torrent_init (.BET_DICT none
      [.BET_STRING (dictkey "comment") (some [120, 0])]) :=
  C17_unknown_key_ignored torrent_init none [] _ (.BET_INTEGER (dictkey "private") 1)
    (bytes "private" ++ [0]) rfl rfl

/-! ## The loader: several files -/

theorem walk_append {σ : Type} (step : σ → bencode → Loaded σ) (l2 : List bencode) :
    ∀ (l1 : List bencode) (st : σ),
      walk step st (l1 ++ l2) =
        match walk step st l1 with
        | .fault => .fault
        | .ret rc st1 => if rc ≠ 0 then .ret (-1) st1 else walk step st1 l2 := by
  intro l1
  induction l1 with
  | nil =>
    intro st
    simp [walk]
  | cons b l1 ih =>
    intro st
    simp only [List.cons_append, walk]
    cases step st b with
    | fault => rfl
    | ret rc st1 =>
      simp only []
      split_ifs
      · rfl
      · exact ih st1

/-- The call of `load_file` on the dictionary of one file puts its entry at the
tail of the file list. -/
theorem load_file_file_dict (tor : torrent) (f : file_spec) (hlen : 0 < f.length) :
    load_files_step tor (file_dict f) =
      .ret 0 { tor with to_filelist := tor.to_filelist ++ [file_entry f] } := by
  have k1 : streq (bytes "path" ++ [0]) "path" = true := rfl
  have k2 : streq (bytes "length" ++ [0]) "length" = true := rfl
  have hsd := be_strdup_string_node none f.path
  have hn : ¬ ((f.length : Int) ≤ 0) := by omega
  have hn0 : f.length ≠ 0 := by omega
  unfold file_dict
  cases f.path_first <;>
    simp [load_files_step, load_file, walk, load_file_step, dictkey, k1, k2, hsd, hn, hn0,
      file_entry]

/-- The call of `load_files` on the nodes of the files puts their entries at
the tail of the file list, in the order of the queue. -/
theorem load_files_file_dicts :
    ∀ (specs : List file_spec) (tor : torrent), (∀ f ∈ specs, 0 < f.length) →
      load_files tor (specs.map file_dict) =
        .ret 0 { tor with to_filelist := tor.to_filelist ++ specs.map file_entry } := by
  intro specs
  induction specs with
  | nil =>
    intro tor _
    simp [load_files, walk]
  | cons f specs ih =>
    intro tor h
    have h1 := load_file_file_dict tor f (h f (List.mem_cons_self _ _))
    have h2 := ih { tor with to_filelist := tor.to_filelist ++ [file_entry f] }
      (fun g hg => h g (List.mem_cons_of_mem _ hg))
    unfold load_files at h2 ⊢
    simp only [List.map_cons, walk, h1]
    simp only [ne_eq, not_true_eq_false, if_false]
    rw [h2]
    simp

/-- A round of `load_info` on an entry that `info_extra_ok` accepts gives 0 and
leaves the file list and `is_single_file` alone. -/
theorem load_info_step_extra (st : info_state) (e : bencode) (h : info_extra_ok e = true) :
    ∃ st', load_info_step st e = .ret 0 st' ∧
      st'.tor.to_filelist = st.tor.to_filelist ∧ st'.is_single_file = st.is_single_file := by
  cases e with
  | BET_DICT k l => exact ⟨st, rfl, rfl, rfl⟩
  | BET_LIST k l =>
    cases k with
    | none => simp [info_extra_ok] at h
    | some key =>
      have hk : streq key "files" = false := by simpa [info_extra_ok] using h
      exact ⟨st, by simp [load_info_step, hk], rfl, rfl⟩
  | BET_INTEGER k n =>
    cases k with
    | none => simp [info_extra_ok] at h
    | some key =>
      simp only [info_extra_ok] at h
      by_cases h1 : streq key "piece length" = true
      · have hn : ¬ (n ≤ 0) := by
          have : 0 < n := by simpa [h1] using h
          omega
        simp only [load_info_step, h1, if_true, hn, if_false]
        exact ⟨_, rfl, rfl, rfl⟩
      · by_cases h2 : streq key "length" = true
        · have hn : ¬ (n ≤ 0) := by
            have : 0 < n := by simpa [h1, h2] using h
            omega
          simp only [load_info_step, h1, h2, if_true, hn, if_false, Bool.false_eq_true]
          exact ⟨_, rfl, rfl, rfl⟩
        · simp only [load_info_step, h1, h2, if_false, Bool.false_eq_true]
          exact ⟨_, rfl, rfl, rfl⟩
  | BET_STRING k s =>
    cases k with
    | none => simp [info_extra_ok] at h
    | some key =>
      have hsd : ∃ d, be_strdup (bencode.BET_STRING (some key) s) = some d := by
        cases s with
        | none => exact ⟨_, rfl⟩
        | some buf => exact ⟨_, rfl⟩
      obtain ⟨d, hd⟩ := hsd
      by_cases h1 : st.tor.to_piecesdigest.isNone = true ∧ streq key "pieces" = true
      · simp only [load_info_step, h1, and_self, if_true, hd]
        exact ⟨_, rfl, rfl, rfl⟩
      · by_cases h2 : streq key "name" = true
        · simp only [load_info_step, h1, if_false, h2, if_true, hd]
          exact ⟨_, rfl, rfl, rfl⟩
        · simp only [load_info_step, h1, if_false, h2, Bool.false_eq_true]
          exact ⟨_, rfl, rfl, rfl⟩

/-- The rounds of `load_info` on entries that `info_extra_ok` accepts give 0
and leave the file list and `is_single_file` alone. -/
theorem walk_info_extras :
    ∀ (l : List bencode) (st : info_state), (∀ e ∈ l, info_extra_ok e = true) →
      ∃ st', walk load_info_step st l = .ret 0 st' ∧
        st'.tor.to_filelist = st.tor.to_filelist ∧
        st'.is_single_file = st.is_single_file := by
  intro l
  induction l with
  | nil =>
    intro st _
    exact ⟨st, rfl, rfl, rfl⟩
  | cons e l ih =>
    intro st h
    obtain ⟨st1, hs, hf1, hi1⟩ := load_info_step_extra st e (h e (List.mem_cons_self _ _))
    obtain ⟨st2, hw, hf2, hi2⟩ := ih st1 (fun c hc => h c (List.mem_cons_of_mem _ hc))
    refine ⟨st2, ?_, by rw [hf2, hf1], by rw [hi2, hi1]⟩
    simp only [walk, hs, ne_eq, not_true_eq_false, if_false]
    exact hw

/-- C18.  For every dictionary `info` with one list `files` whose elements are
dictionaries with a list `path` (the first element a byte string) and an
integer `length` above 0, `load_info` returns 0 and the file list of the
descriptor is the one before with one entry for each element of `files` after
it, in the order of the queue, each with the first element of its `path` and
its length.  The other entries of the dictionary, such as a string `name` and
a positive integer `length` of its own, give no entry. -/
theorem C18_multi_file (tor : torrent) (specs : List file_spec) (ipre ipost : List bencode)
    (hextra : ∀ e ∈ ipre ++ ipost, info_extra_ok e = true)
    (hlen : ∀ f ∈ specs, 0 < f.length) :
    ∃ tor', load_info tor
        (ipre ++ .BET_LIST (dictkey "files") (specs.map file_dict) :: ipost) = .ret 0 tor' ∧
      tor'.to_filelist = tor.to_filelist ++ specs.map file_entry := by
  have kf : streq (bytes "files" ++ [0]) "files" = true := rfl
  obtain ⟨st1, h1, hf1, hi1⟩ := walk_info_extras ipre ⟨tor, none, 0, true⟩
    (fun e he => hextra e (List.mem_append_left _ he))
  have hfiles := load_files_file_dicts specs st1.tor hlen
  obtain ⟨st2, h2, hf2, hi2⟩ := walk_info_extras ipost
    { st1 with
      tor := { st1.tor with to_filelist := st1.tor.to_filelist ++ specs.map file_entry },
      is_single_file := false }
    (fun e he => hextra e (List.mem_append_right _ he))
  refine ⟨st2.tor, ?_, ?_⟩
  · unfold load_info
    rw [walk_append, h1]
    simp only [ne_eq, not_true_eq_false, if_false, walk, load_info_step, dictkey, kf, if_true,
      hfiles, h2, hi2, Bool.false_eq_true]
  · rw [hf2]
    show st1.tor.to_filelist ++ specs.map file_entry = _
    rw [hf1]

/-- C18, at two files `a` (length 3) and `b` (length 5), with a name, a piece
length and a length of the dictionary `info` itself around the list. -/
theorem C18_multi_file_witness :
    ∃ tor', load_info torrent_init
      [.BET_STRING (dictkey "name") (some [110, 0]),
       .BET_INTEGER (dictkey "piece length") 4,
       .BET_LIST (dictkey "files")
        [.BET_DICT none [.BET_LIST (dictkey "path") [.BET_STRING none (some [97, 0])],
          .BET_INTEGER (dictkey "length") 3],
         .BET_DICT none [.BET_INTEGER (dictkey "length") 5,
          .BET_LIST (dictkey "path") [.BET_STRING none (some [98, 0]),
            .BET_STRING none (some [99, 0])]]],
       .BET_INTEGER (dictkey "length") 9] = .ret 0 tor' ∧
      tor'.to_filelist = [⟨[97, 0], 3⟩, ⟨[98, 0], 5⟩] := by
  have h := C18_multi_file torrent_init
    [⟨none, true, [97], [], 3⟩, ⟨none, false, [98], [.BET_STRING none (some [99, 0])], 5⟩]
    [.BET_STRING (dictkey "name") (some [110, 0]), .BET_INTEGER (dictkey "piece length") 4]
    [.BET_INTEGER (dictkey "length") 9]
    (by
      intro e he
      simp only [List.cons_append, List.nil_append, List.mem_cons, List.mem_singleton,
        List.not_mem_nil, or_false] at he
      rcases he with rfl | rfl | rfl <;> rfl)
    (by
      intro f hf
      simp only [List.mem_cons, List.mem_singleton, List.not_mem_nil, or_false] at hf
      rcases hf with rfl | rfl <;> decide)
  simpa [string_node, file_dict, file_entry, torrent_init] using h

/-! ## The loader: trackers -/

theorem cstr_append_nul (u : List Nat) (h : 0 ∉ u) : cstr (u ++ [0]) = u := by
  induction u with
  | nil => rfl
  | cons a t ih =>
    have ha : a ≠ 0 := fun h0 => h (by rw [h0]; exact List.mem_cons_self _ _)
    have ht : 0 ∉ t := fun h0 => h (List.mem_cons_of_mem _ h0)
    have := ih ht
    unfold cstr at this ⊢
    simp [List.takeWhile_cons, ha, this]

/-- The loop of `load_tracker` on the nodes of tiers: of every tier the first
URL goes to the tail of the tracker queue, and nothing else of the tier
does. -/
theorem load_tracker_loop_tiers :
    ∀ (tiers : List tier_spec) (tor : torrent), (∀ t ∈ tiers, t.url ≠ [] ∧ 0 ∉ t.url) →
      load_tracker_loop tor (tiers.map tier_node) =
        .ret 0 { tor with to_trackerlist := tor.to_trackerlist ++ tiers.map tier_tracker } := by
  intro tiers
  induction tiers with
  | nil =>
    intro tor _
    simp [load_tracker_loop]
  | cons t tiers ih =>
    intro tor h
    obtain ⟨hne, hnul⟩ := h t (List.mem_cons_self _ _)
    have h2 := ih { tor with to_trackerlist := tor.to_trackerlist ++ [tier_tracker t] }
      (fun g hg => h g (List.mem_cons_of_mem _ hg))
    simp only [List.map_cons, tier_node, string_node, if_neg hne, load_tracker_loop,
      load_tracker, add_tracker, Option.isSome_none, Bool.false_eq_true, if_false, strdup,
      cstr_append_nul t.url hnul]
    simp only [tier_node, string_node, tier_tracker] at h2
    rw [h2]
    simp [tier_tracker]

/-- The call of `load_file` leaves the tracker queue alone. -/
theorem load_file_trackers (tor tor' : torrent) (l : List bencode) (rc : Int)
    (h : load_file tor l = .ret rc tor') : tor'.to_trackerlist = tor.to_trackerlist := by
  unfold load_file at h
  cases hw : walk load_file_step (none, 0) l with
  | fault => rw [hw] at h; exact Loaded.noConfusion h
  | ret rc1 st =>
    obtain ⟨tname, fsize⟩ := st
    rw [hw] at h
    cases tname with
    | none =>
      simp only [] at h
      split_ifs at h <;> (simp only [Loaded.ret.injEq] at h; rw [← h.2])
    | some path =>
      simp only [] at h
      split_ifs at h <;> (simp only [Loaded.ret.injEq] at h; rw [← h.2])

/-- The call of `load_files` that returns 0 leaves the tracker queue alone. -/
theorem load_files_trackers (tor tor' : torrent) (l : List bencode)
    (h : load_files tor l = .ret 0 tor') : tor'.to_trackerlist = tor.to_trackerlist := by
  unfold load_files at h
  refine walk_invariant load_files_step
    (fun s => s.to_trackerlist = tor.to_trackerlist) l ?_ tor tor' rfl h
  intro b _ s s' hP hs
  show s'.to_trackerlist = tor.to_trackerlist
  cases b with
  | BET_DICT k dl =>
    simp only [load_files_step] at hs
    rw [load_file_trackers s s' dl 0 hs]
    exact hP
  | BET_LIST k dl =>
    simp only [load_files_step, Loaded.ret.injEq, true_and] at hs
    rw [← hs]
    exact hP
  | BET_INTEGER k n =>
    simp only [load_files_step, Loaded.ret.injEq, true_and] at hs
    rw [← hs]
    exact hP
  | BET_STRING k s0 =>
    simp only [load_files_step, Loaded.ret.injEq, true_and] at hs
    rw [← hs]
    exact hP

/-- A round of `load_info` that gives 0 leaves the tracker queue alone. -/
theorem load_info_step_trackers (st st' : info_state) (e : bencode)
    (h : load_info_step st e = .ret 0 st') :
    st'.tor.to_trackerlist = st.tor.to_trackerlist := by
  cases e with
  | BET_DICT k l =>
    simp only [load_info_step, Loaded.ret.injEq, true_and] at h
    rw [← h]
  | BET_LIST k l =>
    cases k with
    | none => simp [load_info_step] at h
    | some key =>
      simp only [load_info_step] at h
      split_ifs at h
      · cases hl : load_files st.tor l with
        | fault => rw [hl] at h; exact Loaded.noConfusion h
        | ret rc tor1 =>
          rw [hl] at h
          simp only [] at h
          split_ifs at h with hrc
          · simp at h
          · have h0 : rc = 0 := by simpa using hrc
            subst h0
            simp only [Loaded.ret.injEq, true_and] at h
            rw [← h]
            exact load_files_trackers st.tor tor1 l hl
      · simp only [Loaded.ret.injEq, true_and] at h
        rw [← h]
  | BET_INTEGER k n =>
    cases k with
    | none => simp [load_info_step] at h
    | some key =>
      simp only [load_info_step] at h
      split_ifs at h
      · simp at h
      · simp only [Loaded.ret.injEq, true_and] at h
        rw [← h]
      · simp at h
      · simp only [Loaded.ret.injEq, true_and] at h
        rw [← h]
      · simp only [Loaded.ret.injEq, true_and] at h
        rw [← h]
  | BET_STRING k s =>
    cases k with
    | none => simp [load_info_step] at h
    | some key =>
      simp only [load_info_step] at h
      split_ifs at h
      · cases hd : be_strdup (bencode.BET_STRING (some key) s) with
        | none => rw [hd] at h; simp at h
        | some d =>
          rw [hd] at h
          simp only [Loaded.ret.injEq, true_and] at h
          rw [← h]
      · cases hd : be_strdup (bencode.BET_STRING (some key) s) with
        | none => rw [hd] at h; simp at h
        | some d =>
          rw [hd] at h
          simp only [Loaded.ret.injEq, true_and] at h
          rw [← h]
      · simp only [Loaded.ret.injEq, true_and] at h
        rw [← h]

/-- The call of `load_info` that returns 0 leaves the tracker queue alone. -/
theorem load_info_trackers (tor tor' : torrent) (l : List bencode)
    (h : load_info tor l = .ret 0 tor') : tor'.to_trackerlist = tor.to_trackerlist := by
  unfold load_info at h
  cases hw : walk load_info_step ⟨tor, none, 0, true⟩ l with
  | fault => rw [hw] at h; exact Loaded.noConfusion h
  | ret rc st =>
    rw [hw] at h
    simp only [] at h
    by_cases hrc : rc ≠ 0
    · rw [if_pos hrc] at h
      simp at h
    · rw [if_neg hrc] at h
      have h0 : rc = 0 := by simpa using hrc
      subst h0
      have hinv : st.tor.to_trackerlist = tor.to_trackerlist :=
        walk_invariant load_info_step (fun s => s.tor.to_trackerlist = tor.to_trackerlist) l
          (fun b _ s s' hP hstep => by
            show s'.tor.to_trackerlist = tor.to_trackerlist
            rw [load_info_step_trackers s s' b hstep]
            exact hP)
          _ st rfl hw
      by_cases hs : st.is_single_file = true
      · rw [if_pos hs] at h
        cases htn : st.tname with
        | none => rw [htn] at h; simp at h
        | some path =>
          rw [htn] at h
          simp only [] at h
          split_ifs at h
          · simp at h
          · simp only [Loaded.ret.injEq, true_and] at h
            rw [← h]
            exact hinv
      · rw [if_neg hs] at h
        simp only [Loaded.ret.injEq, true_and] at h
        rw [← h]
        exact hinv

theorem add_tracker_mono (tor tor' : torrent) (k s : Option (List Nat)) (rc : Int)
    (h : add_tracker tor k s = .ret rc tor') :
    ∀ x ∈ tor.to_trackerlist, x ∈ tor'.to_trackerlist := by
  intro x hx
  unfold add_tracker at h
  cases s with
  | none => exact Loaded.noConfusion h
  | some buf =>
    simp only [] at h
    split_ifs at h
    · simp only [Loaded.ret.injEq] at h
      rw [← h.2]
      exact List.mem_cons_of_mem _ hx
    · simp only [Loaded.ret.injEq] at h
      rw [← h.2]
      exact List.mem_append_left _ hx

mutual

/-- The call of `load_tracker` takes no tracker out of the queue. -/
theorem load_tracker_mono : ∀ (be : bencode) (tor tor' : torrent) (rc : Int),
    load_tracker tor be = .ret rc tor' →
      ∀ x ∈ tor.to_trackerlist, x ∈ tor'.to_trackerlist
  | .BET_STRING k s, tor, tor', rc, h => by
    simp only [load_tracker] at h
    exact add_tracker_mono tor tor' k s rc h
  | .BET_LIST _ l, tor, tor', rc, h => by
    simp only [load_tracker] at h
    exact load_tracker_loop_mono l tor tor' rc h
  | .BET_INTEGER _ _, tor, tor', rc, h => by
    simp only [load_tracker, Loaded.ret.injEq] at h
    rw [← h.2]
    exact fun x hx => hx
  | .BET_DICT _ _, tor, tor', rc, h => by
    simp only [load_tracker, Loaded.ret.injEq] at h
    rw [← h.2]
    exact fun x hx => hx

/-- The loop of `load_tracker` takes no tracker out of the queue. -/
theorem load_tracker_loop_mono : ∀ (l : List bencode) (tor tor' : torrent) (rc : Int),
    load_tracker_loop tor l = .ret rc tor' →
      ∀ x ∈ tor.to_trackerlist, x ∈ tor'.to_trackerlist
  | [], tor, tor', rc, h => by
    simp only [load_tracker_loop, Loaded.ret.injEq] at h
    rw [← h.2]
    exact fun x hx => hx
  | .BET_STRING k s :: rest, tor, tor', rc, h => by
    simp only [load_tracker_loop] at h
    cases ha : add_tracker tor k s with
    | fault => rw [ha] at h; exact Loaded.noConfusion h
    | ret rc1 tor1 =>
      rw [ha] at h
      intro x hx
      exact load_tracker_loop_mono rest tor1 tor' rc h x
        (add_tracker_mono tor tor1 k s rc1 ha x hx)
  | .BET_LIST _ [] :: _, tor, tor', rc, h => by
    simp only [load_tracker_loop] at h
    exact Loaded.noConfusion h
  | .BET_LIST _ (first :: _) :: rest, tor, tor', rc, h => by
    simp only [load_tracker_loop] at h
    cases ha : load_tracker tor first with
    | fault => rw [ha] at h; exact Loaded.noConfusion h
    | ret rc1 tor1 =>
      rw [ha] at h
      intro x hx
      exact load_tracker_loop_mono rest tor1 tor' rc h x
        (load_tracker_mono first tor tor1 rc1 ha x hx)
  | .BET_INTEGER _ _ :: rest, tor, tor', rc, h => by
    simp only [load_tracker_loop] at h
    exact load_tracker_loop_mono rest tor tor' rc h
  | .BET_DICT _ _ :: rest, tor, tor', rc, h => by
    simp only [load_tracker_loop] at h
    exact load_tracker_loop_mono rest tor tor' rc h

end

/-- The tests `announce`, `announce-list` and `info` take no tracker out of
the queue when they give 0. -/
theorem load_torrent_rest_mono (tor tor' : torrent) (key : List Nat) (ben : bencode)
    (h : load_torrent_rest tor key ben = .ret 0 tor') :
    ∀ x ∈ tor.to_trackerlist, x ∈ tor'.to_trackerlist := by
  unfold load_torrent_rest at h
  by_cases h1 : streq key "announce" = true
  · rw [if_pos h1] at h
    cases hl : load_tracker tor ben with
    | fault => rw [hl] at h; exact Loaded.noConfusion h
    | ret rc tor1 =>
      rw [hl] at h
      simp only [] at h
      split_ifs at h
      · simp at h
      · simp only [Loaded.ret.injEq, true_and] at h
        rw [← h]
        exact load_tracker_mono ben tor tor1 rc hl
  · rw [if_neg h1] at h
    by_cases h2 : streq key "announce-list" = true
    · rw [if_pos h2] at h
      cases hl : load_tracker tor ben with
      | fault => rw [hl] at h; exact Loaded.noConfusion h
      | ret rc tor1 =>
        rw [hl] at h
        simp only [Loaded.ret.injEq, true_and] at h
        rw [← h]
        exact load_tracker_mono ben tor tor1 rc hl
    · rw [if_neg h2] at h
      cases ben with
      | BET_DICT k l =>
        simp only [] at h
        by_cases h3 : streq key "info" = true
        · rw [if_pos h3] at h
          cases hl : load_info tor l with
          | fault => rw [hl] at h; exact Loaded.noConfusion h
          | ret rc tor1 =>
            rw [hl] at h
            simp only [] at h
            by_cases hrc : rc ≠ 0
            · rw [if_pos hrc] at h
              simp at h
            · rw [if_neg hrc] at h
              have h0 : rc = 0 := by simpa using hrc
              subst h0
              simp only [Loaded.ret.injEq, true_and] at h
              rw [← h, load_info_trackers tor tor1 l hl]
              exact fun x hx => hx
        · rw [if_neg h3] at h
          simp only [Loaded.ret.injEq, true_and] at h
          rw [← h]
          exact fun x hx => hx
      | BET_LIST k l =>
        simp only [Loaded.ret.injEq, true_and] at h
        rw [← h]
        exact fun x hx => hx
      | BET_INTEGER k n =>
        simp only [Loaded.ret.injEq, true_and] at h
        rw [← h]
        exact fun x hx => hx
      | BET_STRING k s =>
        simp only [Loaded.ret.injEq, true_and] at h
        rw [← h]
        exact fun x hx => hx

/-- A round of `load_torrent` that gives 0 takes no tracker out of the
queue. -/
theorem load_torrent_step_mono (tor tor' : torrent) (ben : bencode)
    (h : load_torrent_step tor ben = .ret 0 tor') :
    ∀ x ∈ tor.to_trackerlist, x ∈ tor'.to_trackerlist := by
  cases ben with
  | BET_DICT k l =>
    cases k with
    | none => simp [load_torrent_step] at h
    | some key =>
      simp only [load_torrent_step] at h
      exact load_torrent_rest_mono tor tor' key _ h
  | BET_LIST k l =>
    cases k with
    | none => simp [load_torrent_step] at h
    | some key =>
      simp only [load_torrent_step] at h
      exact load_torrent_rest_mono tor tor' key _ h
  | BET_INTEGER k n =>
    cases k with
    | none => simp [load_torrent_step] at h
    | some key =>
      simp only [load_torrent_step] at h
      split_ifs at h
      · simp only [Loaded.ret.injEq, true_and] at h
        rw [← h]
        exact fun x hx => hx
      · exact load_torrent_rest_mono tor tor' key _ h
  | BET_STRING k s =>
    cases k with
    | none => simp [load_torrent_step] at h
    | some key =>
      simp only [load_torrent_step] at h
      split_ifs at h
      · simp only [Loaded.ret.injEq, true_and] at h
        rw [← h]
        exact fun x hx => hx
      · simp only [Loaded.ret.injEq, true_and] at h
        rw [← h]
        exact fun x hx => hx
      · exact load_torrent_rest_mono tor tor' key _ h

/-- The round of `load_torrent` on an `announce-list` of tiers. -/
theorem load_torrent_step_tiers (tor : torrent) (alk : List Nat) (tiers : List tier_spec)
    (hal : streq alk "announce-list" = true)
    (htiers : ∀ t ∈ tiers, t.url ≠ [] ∧ 0 ∉ t.url) :
    load_torrent_step tor (.BET_LIST (some alk) (tiers.map tier_node)) =
      .ret 0 { tor with to_trackerlist := tor.to_trackerlist ++ tiers.map tier_tracker } := by
  have h1 : streq alk "announce" = false :=
    streq_excl alk "announce-list" "announce" hal rfl
  simp only [load_torrent_step, load_torrent_rest, h1, hal, if_true, Bool.false_eq_true,
    if_false, load_tracker, load_tracker_loop_tiers tiers tor htiers]

/-- C16, as the claim states it, fails at an `announce-list` with one tier of
two URLs `a` and `b`: the load returns 0 and `b` is not in the tracker list. -/
theorem C16_tier_urls_counterexample :
    ∃ tor', load_torrent torrent_init (.BET_DICT none
        [.BET_LIST (dictkey "announce-list")
          [.BET_LIST none [.BET_STRING none (some [97, 0]),
            .BET_STRING none (some [98, 0])]]]) = .ret 0 tor' ∧
      (⟨[98, 0]⟩ : tracker) ∉ tor'.to_trackerlist ∧ tor'.to_trackerlist.length = 1 :=
  ⟨{ torrent_init with to_trackerlist := [⟨[97, 0]⟩] }, rfl, by decide, rfl⟩

/-- C16, amended.  For every top-level dictionary with an entry
`announce-list` that is a list of tiers, each tier a list whose first element
is a URL (not empty, without a NUL byte): the round on the entry puts the
first URL of every tier, and no other, at the tail of the tracker list, so it
gives as many trackers as there are tiers; and when `load_torrent` returns 0,
the first URL of every tier is in the tracker list of the descriptor. -/
theorem C16_first_url_of_each_tier (tor : torrent) (k : Option (List Nat))
    (pre post : List bencode) (alk : List Nat) (tiers : List tier_spec)
    (hal : streq alk "announce-list" = true)
    (htiers : ∀ t ∈ tiers, t.url ≠ [] ∧ 0 ∉ t.url) :
    (∀ tor1, load_torrent_step tor1 (.BET_LIST (some alk) (tiers.map tier_node)) =
      .ret 0 { tor1 with
        to_trackerlist := tor1.to_trackerlist ++ tiers.map tier_tracker }) ∧
    (∀ tor', load_torrent tor
        (.BET_DICT k (pre ++ .BET_LIST (some alk) (tiers.map tier_node) :: post)) =
          .ret 0 tor' →
      ∀ t ∈ tiers, tier_tracker t ∈ tor'.to_trackerlist) := by
  refine ⟨fun tor1 => load_torrent_step_tiers tor1 alk tiers hal htiers, ?_⟩
  intro tor' h t ht
  simp only [load_torrent] at h
  rw [walk_append] at h
  cases hpre : walk load_torrent_step tor pre with
  | fault => rw [hpre] at h; exact Loaded.noConfusion h
  | ret rc tor1 =>
    rw [hpre] at h
    simp only [] at h
    by_cases hrc : rc ≠ 0
    · rw [if_pos hrc] at h
      simp at h
    · rw [if_neg hrc] at h
      simp only [walk, load_torrent_step_tiers tor1 alk tiers hal htiers, ne_eq,
        not_true_eq_false, if_false] at h
      refine walk_invariant load_torrent_step
        (fun s => tier_tracker t ∈ s.to_trackerlist) post
        (fun b _ s s' hP hs => load_torrent_step_mono s s' b hs _ hP) _ tor' ?_ h
      show tier_tracker t ∈ tor1.to_trackerlist ++ tiers.map tier_tracker
      exact List.mem_append_right _ (List.mem_map_of_mem _ ht)

/-- C16, amended, at an `announce` and an `announce-list` of two tiers, the
first with two URLs: the first URL of each tier is in the tracker list. -/
theorem C16_first_url_of_each_tier_witness :
    load_torrent torrent_init (.BET_DICT none
        [.BET_LIST (dictkey "announce-list")
          [.BET_LIST none [.BET_STRING none (some [97, 0]), .BET_STRING none (some [98, 0])],
           .BET_LIST none [.BET_STRING none (some [99, 0])]],
         .BET_STRING (dictkey "announce") (some [122, 0])]) =
      .ret 0 { torrent_init with to_trackerlist := [⟨[122, 0]⟩, ⟨[97, 0]⟩, ⟨[99, 0]⟩] } ∧
    (⟨[97, 0]⟩ : tracker) ∈ [(⟨[122, 0]⟩ : tracker), ⟨[97, 0]⟩, ⟨[99, 0]⟩] ∧
    (⟨[99, 0]⟩ : tracker) ∈ [(⟨[122, 0]⟩ : tracker), ⟨[97, 0]⟩, ⟨[99, 0]⟩] := by
  have h := (C16_first_url_of_each_tier torrent_init none []
    [.BET_STRING (dictkey "announce") (some [122, 0])] (bytes "announce-list" ++ [0])
    [⟨none, [97], [.BET_STRING none (some [98, 0])]⟩, ⟨none, [99], []⟩] (by rfl)
    (by
      intro t ht
      simp only [List.mem_cons, List.mem_singleton, List.not_mem_nil, or_false] at ht
      rcases ht with rfl | rfl <;> exact ⟨by decide, by decide⟩)).2
    { torrent_init with to_trackerlist := [⟨[122, 0]⟩, ⟨[97, 0]⟩, ⟨[99, 0]⟩] } (by rfl)
  exact ⟨rfl, h ⟨none, [97], [.BET_STRING none (some [98, 0])]⟩ (List.mem_cons_self _ _),
    h ⟨none, [99], []⟩ (List.mem_cons_of_mem _ (List.mem_cons_self _ _))⟩

end Torrentd
